import Mathlib

/-!
Verification of the mask-guided compositing pipeline of the car-visualization
repository.  The definitions below are shallow embeddings of the pixel-level
algorithms found in the repository's mask utilities and API route handlers:
connected-component filtering of binary masks, masked cutout, alpha-blend
compositing, mask alignment guards, difference-layer extraction, and the
segmentation retry loop.  Rasters are embedded as total functions from pixel
index to channel values (JS typed arrays read in-bounds throughout the
embedded loops) or as `List ℕ` buffers; machine numbers are `ℕ`/`ℤ`/`ℚ`.
-/

/-- An RGBA pixel; channel values are bytes 0..255 in the source buffers. -/
structure Pixel where
  r : ℕ
  g : ℕ
  b : ℕ
  a : ℕ
deriving DecidableEq, Repr

/-- A raster: width, height and a flat row-major pixel buffer. -/
structure Raster where
  width : ℕ
  height : ℕ
  data : List Pixel
deriving DecidableEq, Repr

/-- Embeds the wheel-layer extraction loop of the replace-wheels route and the
identical body-layer loop of the paint-body route: for each pixel, copy the
generated candidate's R, G, B verbatim and set alpha to the raw grayscale mask
value (`wheelLayer[srcIdx+3] = maskVal`).  `n` is `width * height`. -/
def extractMaskedLayer (generatedRaw : ℕ → Pixel) (maskRaw : ℕ → ℕ) (n : ℕ) :
    List Pixel :=
  (List.range n).map (fun i =>
    { r := (generatedRaw i).r
      g := (generatedRaw i).g
      b := (generatedRaw i).b
      a := maskRaw i })

/-- Embeds the wheel-mask subtraction loop of the paint-body route:
`combined[i] = bodyRaw[i] > 128 && wheelRaw[i] < 128 ? 255 : 0`. -/
def subtractWheelFromBody (bodyRaw wheelRaw : ℕ → ℕ) (n : ℕ) : List ℕ :=
  (List.range n).map (fun i =>
    if 128 < bodyRaw i ∧ wheelRaw i < 128 then 255 else 0)

/-- JavaScript `Math.round`: round half away from zero; on the nonnegative
values produced by the blend loop this is `⌊x + 1/2⌋`. -/
def jsRound (x : ℚ) : ℤ := ⌊x + 1 / 2⌋

/-- One channel of the mask compositing loop of `compositeWithMask`:
`Math.round(original * (1 - alpha) + modified * alpha)` with
`alpha = maskValue / 255`. -/
def blendChannel (o m maskValue : ℕ) : ℕ :=
  (jsRound ((o : ℚ) * (1 - (maskValue : ℚ) / 255) +
    (m : ℚ) * ((maskValue : ℚ) / 255))).toNat

/-- Embeds the pixel loop of `compositeWithMask` in the mask utilities: the
mask's R channel drives a per-pixel alpha blend of original and modified, and
the output alpha channel is the constant 255. -/
def compositeWithMask (originalRaw modifiedRaw maskRaw : ℕ → Pixel) (n : ℕ) :
    List Pixel :=
  (List.range n).map (fun i =>
    let maskValue := (maskRaw i).r
    { r := blendChannel (originalRaw i).r (modifiedRaw i).r maskValue
      g := blendChannel (originalRaw i).g (modifiedRaw i).g maskValue
      b := blendChannel (originalRaw i).b (modifiedRaw i).b maskValue
      a := 255 })

/-- Modelled from the spec: the external image library's fill-mode
nearest-neighbor resize (§4.2 of the spec); the resizer itself is a
third-party collaborator, not repository code.  Only the no-op guard around
it (see `alignToSize`) is repository code. -/
def nearestResize (r : Raster) (targetW targetH : ℕ) : Raster :=
  { width := targetW
    height := targetH
    data := (List.range (targetW * targetH)).map (fun i =>
      let x := i % targetW
      let y := i / targetW
      r.data.getD ((y * r.height / targetH) * r.width + x * r.width / targetW)
        ⟨0, 0, 0, 0⟩) }

/-- Embeds the resize guards of the detect-wheels, detect-body, replace-wheels
and paint-body routes: the raster is passed to the (external) resizer only
when its dimensions differ from the target, and is otherwise returned as-is
(`let resized = buffer; if (w !== W || h !== H) resized = await sharp...`).
The resizer is a parameter because it is an external collaborator. -/
def alignToSize (r : Raster) (targetW targetH : ℕ)
    (resize : Raster → ℕ → ℕ → Raster) : Raster :=
  if r.width ≠ targetW ∨ r.height ≠ targetH then resize r targetW targetH else r

/-- The two mask roles of `extractDifferenceLayer`. -/
inductive MaskMode where
  | includeMode
  | excludeMode
deriving DecidableEq, Repr

/-- Embeds `extractDifferenceLayer` of the mask utilities.  `regionMask` is
`none` when no mask was supplied; otherwise it carries the outcome of loading
and decoding the mask.  The source wraps the load in try/catch and on failure
logs and continues without a mask (`maskRaw` stays null), which the
`Except.error` branch mirrors.  Per pixel: the layer keeps the generated pixel
opaque when the color difference exceeds `threshold * 3` and the pixel passes
the mask filter, and is fully transparent otherwise. -/
def extractDifferenceLayer (originalRaw generatedRaw : ℕ → Pixel)
    (width height : ℕ) (threshold : ℤ)
    (regionMask : Option (Except String (ℕ → ℕ))) (maskMode : MaskMode) :
    List Pixel :=
  let maskRaw : Option (ℕ → ℕ) :=
    match regionMask with
    | none => none
    | some (Except.ok m) => some m
    | some (Except.error _) => none
  (List.range (width * height)).map (fun i =>
    let diff : ℤ := |((originalRaw i).r : ℤ) - ((generatedRaw i).r : ℤ)| +
      |((originalRaw i).g : ℤ) - ((generatedRaw i).g : ℤ)| +
      |((originalRaw i).b : ℤ) - ((generatedRaw i).b : ℤ)|
    let passesFilter : Bool :=
      match maskRaw with
      | none => true
      | some m =>
        let isInMask := decide (128 < m i)
        match maskMode with
        | MaskMode.includeMode => isInMask
        | MaskMode.excludeMode => !isInMask
    if threshold * 3 < diff ∧ passesFilter = true then
      ⟨(generatedRaw i).r, (generatedRaw i).g, (generatedRaw i).b, 255⟩
    else ⟨0, 0, 0, 0⟩)

/-- `hasSub s sub` decides whether `sub` occurs as a contiguous substring of
`s`, the semantics of JavaScript `String.prototype.includes`. -/
def startsWithChars : List Char → List Char → Bool
  | _, [] => true
  | [], _ :: _ => false
  | a :: as, b :: bs => a == b && startsWithChars as bs

/-- Substring containment over character lists. -/
def hasSub : List Char → List Char → Bool
  | [], sub => startsWithChars [] sub
  | a :: as, sub => startsWithChars (a :: as) sub || hasSub as sub

/-- The fail-fast test of the segmentation retry loop:
`error?.message?.includes("token") || error?.message?.includes("401")`. -/
def includesTokenOr401 (msg : String) : Bool :=
  hasSub msg.data "token".data || hasSub msg.data "401".data

/-- Trace of one run of the segmentation retry loop: final outcome, how many
attempts were made, and the backoff waits (in milliseconds, in order). -/
structure SamTrace (α : Type) where
  result : Except String α
  attemptsMade : ℕ
  waitsMs : List ℕ
deriving Repr

/-- Embeds the retry loop of `segmentWithSam3`: for `attempt` in
`1..maxRetries`, wait `1000 * attempt` ms before every attempt after the
first, run the model, return on success, remember the error on failure, and
break out (surfacing the error) when the message contains "token" or "401".
When the loop ends the last error is thrown.  `runAttempt` gives the outcome
of each numbered invocation of the external collaborator; `remaining` counts
the loop iterations still allowed and makes the recursion structural. -/
def samLoop (runAttempt : ℕ → Except String α) :
    ℕ → ℕ → Option String → List ℕ → ℕ → SamTrace α
  | 0, _, lastError, waits, made => ⟨Except.error (lastError.getD ""), made, waits⟩
  | remaining + 1, attempt, _, waits, made =>
    let waits' := if 1 < attempt then waits ++ [1000 * attempt] else waits
    match runAttempt attempt with
    | Except.ok v => ⟨Except.ok v, made + 1, waits'⟩
    | Except.error e =>
      if includesTokenOr401 e then ⟨Except.error e, made + 1, waits'⟩
      else samLoop runAttempt remaining (attempt + 1) (some e) waits' (made + 1)

/-- The segmentation invocation with the source's `maxRetries = 2`. -/
def segmentWithSam3 (runAttempt : ℕ → Except String α) : SamTrace α :=
  samLoop runAttempt 2 1 none [] 0

/-- Foreground pixel count of a grayscale buffer: pixels classified
"in region" by the spec's fixed threshold (intensity strictly above 128). -/
def fgCountList (l : List ℕ) : ℕ := (l.filter (fun v => decide (128 < v))).length

/-- Insert into a list sorted by the boolean comparator `le`. -/
def insertSorted (le : α → α → Bool) (a : α) : List α → List α
  | [] => [a]
  | b :: bs => if le b a then b :: insertSorted le a bs else a :: b :: bs

/-- Embeds `Array.prototype.sort` with a comparator: a comparator-consistent
reordering of the input.  (The claims under proof treat the order of
equal-rank elements as arbitrary, so any such reordering is a faithful
model of the engine's sort.) -/
def jsSort (le : α → α → Bool) : List α → List α
  | [] => []
  | a :: as => insertSorted le a (jsSort le as)

/-- 4-adjacency between row-major pixel indices of a `w × h` grid: indices in
range that differ by one column (not across a row boundary) or by one row. -/
def Adj (w h i j : ℕ) : Prop :=
  i < w * h ∧ j < w * h ∧
    ((j = i + 1 ∧ (i + 1) % w ≠ 0) ∨ (i = j + 1 ∧ (j + 1) % w ≠ 0) ∨
      j = i + w ∨ i = j + w)

/-- Reachability through foreground pixels: the reflexive-transitive closure
of 4-adjacency restricted to pixels satisfying `fg`. -/
inductive Reach (fg : ℕ → Bool) (w h : ℕ) : ℕ → ℕ → Prop
  | refl (i : ℕ) : i < w * h → fg i = true → Reach fg w h i i
  | tail {i j k : ℕ} : Reach fg w h i j → Adj w h j k → fg k = true →
      Reach fg w h i k

/-- A 4-connected component of the foreground determined by `fg`: the
reach-set of one of its members. -/
def IsCC (fg : ℕ → Bool) (w h : ℕ) (c : Set ℕ) : Prop :=
  ∃ s, fg s = true ∧ s < w * h ∧ c = {j | Reach fg w h s j}

/-- Generic explicit-stack flood-fill loop shared by the repository's two
connected-component labelers.  `valid` interprets a stack entry as an
in-bounds pixel index (entries it rejects are popped and discarded, matching
the sources' bounds checks); `skip` is the source's combined
not-foreground-or-already-labeled test; `expand` lists the neighbor entries
pushed when a pixel is labeled, head of the list topmost on the stack; `upd`
advances the per-region statistics on each labeled pixel.  The JS loops run
until the stack empties; `fuel` bounds the iteration count of the embedding,
and the termination theorems below show the fuel used by the callers is never
exhausted. -/
def worklist (valid : E → Option ℕ) (skip : (ℕ → ℕ) → ℕ → Bool)
    (expand : E → List E) (upd : σ → E → σ) (label : ℕ) :
    ℕ → (ℕ → ℕ) → List E → σ → Option ((ℕ → ℕ) × σ)
  | _, labels, [], s => some (labels, s)
  | 0, _, _ :: _, _ => none
  | fuel + 1, labels, e :: rest, s =>
    match valid e with
    | none => worklist valid skip expand upd label fuel labels rest s
    | some idx =>
      if skip labels idx then
        worklist valid skip expand upd label fuel labels rest s
      else
        worklist valid skip expand upd label fuel
          (fun j => if j = idx then label else labels j)
          (expand e ++ rest) (upd s e)

/-- Generic labeling pass shared by the repository's two connected-component
labelers: scan the seeds in order; whenever the seed pixel is foreground and
unlabeled, flood-fill from it with the next fresh label (`worklist` with the
same parameters the per-source flood-fill wrappers use) and append the
discovered region record. -/
def scanLoop (valid : E → Option ℕ) (skip : (ℕ → ℕ) → ℕ → Bool)
    (expand : E → List E) (upd : σ → E → σ) (fg : ℕ → Bool) (aEntry : A → E)
    (aIdx : A → ℕ) (initStat : A → σ) (mkRegion : ℕ → σ → ρ) (w h : ℕ) :
    List A → (ℕ → ℕ) → List ρ → ℕ → ((ℕ → ℕ) × List ρ × ℕ)
  | [], labels, regs, next => (labels, regs, next)
  | a :: as, labels, regs, next =>
    if fg (aIdx a) = true ∧ labels (aIdx a) = 0 then
      match worklist valid skip expand upd next (5 * (w * h) + 1) labels
          [aEntry a] (initStat a) with
      | some (labels', s') =>
        scanLoop valid skip expand upd fg aEntry aIdx initStat mkRegion w h
          as labels' (regs ++ [mkRegion next s']) (next + 1)
      | none =>
        scanLoop valid skip expand upd fg aEntry aIdx initStat mkRegion w h
          as labels regs next
    else
      scanLoop valid skip expand upd fg aEntry aIdx initStat mkRegion w h
        as labels regs next

/-- Count of foreground pixels not yet labeled; the strictly decreasing part
of the flood-fill termination measure. -/
def unlabeledCount (fg : ℕ → Bool) (w h : ℕ) (labels : ℕ → ℕ) : ℕ :=
  ((Finset.range (w * h)).filter (fun j => fg j = true ∧ labels j = 0)).card

/-- A discovered region of the mask-utilities component labeler: label,
pixel count, and bounding box. -/
structure Region where
  id : ℕ
  pixels : ℕ
  minX : ℕ
  maxX : ℕ
  minY : ℕ
  maxY : ℕ
deriving DecidableEq, Repr

/-- The mask-utilities flood fill pops signed coordinates and discards
out-of-range ones (`if (x < 0 || x >= width || y < 0 || y >= height)
continue`); in-range coordinates denote the row-major index. -/
def validCoord (w h : ℕ) (p : ℤ × ℤ) : Option ℕ :=
  if p.1 < 0 ∨ (w : ℤ) ≤ p.1 ∨ p.2 < 0 ∨ (h : ℤ) ≤ p.2 then none
  else some (p.2.toNat * w + p.1.toNat)

/-- The mask-utilities flood fill pushes the four neighbors
`[x+1,y], [x-1,y], [x,y+1], [x,y-1]` in that order; head of the returned list
is the last pushed, hence topmost on the stack. -/
def expandCoord (p : ℤ × ℤ) : List (ℤ × ℤ) :=
  [(p.1, p.2 - 1), (p.1, p.2 + 1), (p.1 - 1, p.2), (p.1 + 1, p.2)]

/-- The mask-utilities flood fill's discard test:
`binaryMask[idx] !== 1 || labels[idx] !== 0`. -/
def skipCoord (binaryMask : ℕ → ℕ) (labels : ℕ → ℕ) (idx : ℕ) : Bool :=
  !(binaryMask idx == 1) || !(labels idx == 0)

/-- The mask-utilities flood fill's per-labeled-pixel statistics update:
`pixels++` and the `Math.min`/`Math.max` bounding-box updates, on the stats
tuple `(pixels, minX, maxX, minY, maxY)`.  Coordinates are in range when
this runs, so `Int.toNat` is exact. -/
def updStats (s : ℕ × ℕ × ℕ × ℕ × ℕ) (e : ℤ × ℤ) : ℕ × ℕ × ℕ × ℕ × ℕ :=
  (s.1 + 1, min s.2.1 e.1.toNat, max s.2.2.1 e.1.toNat,
    min s.2.2.2.1 e.2.toNat, max s.2.2.2.2 e.2.toNat)

/-- Embeds `floodFill` of the mask utilities: explicit-stack flood fill from
`(startX, startY)`, labeling 4-connected foreground (`binaryMask = 1`) pixels
with `label` and returning the updated labels with the discovered `Region`. -/
def floodFill (binaryMask : ℕ → ℕ) (w h : ℕ) (labels : ℕ → ℕ)
    (startX startY : ℕ) (label : ℕ) : Option ((ℕ → ℕ) × Region) :=
  (worklist (validCoord w h) (skipCoord binaryMask) expandCoord updStats label
      (5 * (w * h) + 1) labels [((startX : ℤ), (startY : ℤ))]
      (0, startX, startX, startY, startY)).map
    (fun r => (r.1, ⟨label, r.2.1, r.2.2.1, r.2.2.2.1, r.2.2.2.2.1,
      r.2.2.2.2.2⟩))

/-- The scan order of the mask-utilities labeling pass:
`for y in 0..h-1, for x in 0..w-1`. -/
def rowMajor (w h : ℕ) : List (ℕ × ℕ) :=
  (List.range h).flatMap (fun y => (List.range w).map (fun x => (x, y)))

/-- Embeds the labeling pass of `filterMaskToLargestRegions` (the nested
`for y / for x` loops that flood-fill every unlabeled foreground pixel in
row-major order, collecting one `Region` per component). -/
def labelRegions (binaryMask : ℕ → ℕ) (w h : ℕ) :
    (ℕ → ℕ) × List Region × ℕ :=
  scanLoop (validCoord w h) (skipCoord binaryMask) expandCoord
    updStats (fun i => binaryMask i == 1) (fun p => ((p.1 : ℤ), (p.2 : ℤ)))
    (fun p => p.2 * w + p.1) (fun p => (0, p.1, p.1, p.2, p.2))
    (fun l s => (⟨l, s.1, s.2.1, s.2.2.1, s.2.2.2.1, s.2.2.2.2⟩ : Region)) w h
    (rowMajor w h) (fun _ => 0) [] 1

/-- Embeds `filterMaskToLargestRegions` of the mask utilities: binarize the
raster at intensity `> 128` on channel 0, label 4-connected components by
scanning row-major and flood-filling each unlabeled foreground pixel, sort
the regions by pixel count descending (`(a, b) => b.pixels - a.pixels`), keep
the ids of the first `keepCount`, and write an RGBA buffer with 255 on kept
labels and 0 elsewhere, alpha 255. -/
def filterMaskToLargestRegions (data : List ℕ) (channels w h : ℕ)
    (keepCount : ℕ) : List ℕ :=
  let binaryMask : ℕ → ℕ :=
    fun i => if 128 < data.getD (i * channels) 0 then 1 else 0
  let scanned := labelRegions binaryMask w h
  let labels := scanned.1
  let regions := scanned.2.1
  let sorted := jsSort (fun a b => decide (b.pixels ≤ a.pixels)) regions
  let keepIds := (sorted.take keepCount).map (fun r => r.id)
  (List.range (w * h)).flatMap (fun i =>
    let value := if keepIds.contains (labels i) then 255 else 0
    [value, value, value, 255])

/-- The route-handler flood fills work on plain indices; pushes are
bounds-guarded, so entries are always in range (an out-of-range read would in
any case be discarded by the typed-array comparison semantics). -/
def validIdx (w h : ℕ) (idx : ℕ) : Option ℕ :=
  if idx < w * h then some idx else none

/-- The route-handler flood fills push `idx-1` (if `x > 0`), `idx+1` (if
`x < width-1`), `idx-width` (if `y > 0`), `idx+width` (if `y < height-1`) in
that order; head of the returned list is the last pushed. -/
def expandIdx (w h idx : ℕ) : List ℕ :=
  let x := idx % w
  let y := idx / w
  (if y < h - 1 then [idx + w] else []) ++ (if 0 < y then [idx - w] else []) ++
    (if x < w - 1 then [idx + 1] else []) ++ (if 0 < x then [idx - 1] else [])

/-- The route-handler flood fills' discard test:
`labels[idx] !== 0 || rawMask[idx] < 128`. -/
def skipIdx (rawMask : ℕ → ℕ) (labels : ℕ → ℕ) (idx : ℕ) : Bool :=
  !(labels idx == 0) || decide (rawMask idx < 128)

/-- Embeds the `floodFill` closure of the detect-wheels, detect-body and
paint-body route handlers (identical in all three): explicit-stack flood fill
from `startIdx`, labeling 4-connected foreground (`rawMask[idx] >= 128`)
pixels with `label` and returning the updated labels and the region size. -/
def floodFillIdx (rawMask : ℕ → ℕ) (w h : ℕ) (labels : ℕ → ℕ)
    (startIdx label : ℕ) : Option ((ℕ → ℕ) × ℕ) :=
  worklist (validIdx w h) (skipIdx rawMask) (expandIdx w h) (fun s _ => s + 1)
    label (5 * (w * h) + 1) labels [startIdx] 0

/-- Embeds the component-labeling scan shared by the detect-wheels,
detect-body and paint-body route handlers: for each `i` in `0..w*h-1` with
`rawMask[i] >= 128 && labels[i] === 0`, flood-fill from `i` with the next
label and record `(label, size)` in discovery order (the insertion order of
the source's `componentSizes` map). -/
def labelComponents (rawMask : ℕ → ℕ) (w h : ℕ) :
    (ℕ → ℕ) × List (ℕ × ℕ) × ℕ :=
  scanLoop (validIdx w h) (skipIdx rawMask) (expandIdx w h) (fun s _ => s + 1)
    (fun i => decide (128 ≤ rawMask i)) (fun i => i) (fun i => i) (fun _ => 0)
    (fun l s => (l, s)) w h (List.range (w * h)) (fun _ => 0) [] 1

/-- Embeds `keepLargestComponents` of the detect-wheels route: label
components of the `>= 128` foreground, sort `(label, size)` pairs by size
descending, keep the first `maxComponents` labels, and write 255 on kept
labels and 0 elsewhere. -/
def keepLargestComponents (rawMask : List ℕ) (w h maxComponents : ℕ) :
    List ℕ :=
  let raw : ℕ → ℕ := fun i => rawMask.getD i 0
  let scanned := labelComponents raw w h
  let labels := scanned.1
  let componentSizes := scanned.2.1
  let sortedComponents :=
    (jsSort (fun a b => decide (b.2 ≤ a.2)) componentSizes).take maxComponents
  let keepLabels := sortedComponents.map (fun p => p.1)
  (List.range (w * h)).map (fun i =>
    if keepLabels.contains (labels i) then 255 else 0)

/-- Embeds `keepLargestComponent` of the paint-body and detect-body routes
(identical in both): label components of the `>= 128` foreground, find the
largest by a fold starting from `largestLabel = 0, largestSize = 0`, and
write 255 exactly where the labels equal the winning label. -/
def keepLargestComponent (rawMask : List ℕ) (w h : ℕ) : List ℕ :=
  let raw : ℕ → ℕ := fun i => rawMask.getD i 0
  let scanned := labelComponents raw w h
  let labels := scanned.1
  let componentSizes := scanned.2.1
  let largest := componentSizes.foldl
    (fun acc p => if acc.2 < p.2 then (p.1, p.2) else acc) (0, 0)
  (List.range (w * h)).map (fun i => if labels i = largest.1 then 255 else 0)


/-- Invariant of the labeling passes: every nonzero label sits on an in-range
foreground pixel and is below `next`; region ids are `1 .. regs.length` in
discovery order with `next = regs.length + 1`; and each recorded region's
label class is exactly the reach-set of some seed pixel, its recorded size
that set's cardinality. -/
def ScanInv {ρ : Type} (fg : ℕ → Bool) (w h : ℕ) (rId rSize : ρ → ℕ)
    (labels : ℕ → ℕ) (regs : List ρ) (next : ℕ) : Prop :=
  (∀ j, labels j ≠ 0 → fg j = true ∧ j < w * h ∧ labels j < next) ∧
  (regs.map rId = List.range' 1 regs.length) ∧ (next = regs.length + 1) ∧
  (∀ r ∈ regs, ∃ sd, fg sd = true ∧ sd < w * h ∧
    (∀ j, labels j = rId r ↔ Reach fg w h sd j) ∧
    rSize r = {j | Reach fg w h sd j}.ncard)


/-- Foreground predicate of `filterMaskToLargestRegions`: channel-0 intensity
strictly above 128. -/
def maskForeground (data : List ℕ) (channels : ℕ) : ℕ → Bool :=
  fun i => decide (128 < data.getD (i * channels) 0)

/-- Foreground predicate of the route-handler labelers: grayscale intensity
at least 128. -/
def rawForeground (rawMask : List ℕ) : ℕ → Bool :=
  fun i => decide (128 ≤ rawMask.getD i 0)

/-- The specification of a keep-the-largest-components filter for foreground
predicate `fg`: the output value function is 0/255-valued, its 255-set is the
union of a duplicate-free list of true 4-connected components of `fg`, at
most `keep` of them, and whenever some component is left out, exactly `keep`
components were kept, each at least as large as the excluded one. -/
def KeepsLargestComponents (fg : ℕ → Bool) (w h keep : ℕ)
    (value : ℕ → ℕ) : Prop :=
  ∃ comps : List (Set ℕ),
    (∀ c ∈ comps, IsCC fg w h c) ∧ comps.Nodup ∧ comps.length ≤ keep ∧
    (∀ i, i < w * h → ((value i = 255 ∨ value i = 0) ∧
      (value i = 255 ↔ ∃ c ∈ comps, i ∈ c))) ∧
    (∀ c, IsCC fg w h c → c ∉ comps →
      comps.length = keep ∧ ∀ c' ∈ comps, c.ncard ≤ c'.ncard)

/-! ## Basic evaluation lemmas -/

theorem getD_map_range {α : Type} (f : ℕ → α) (d : α) {n i : ℕ} (h : i < n) :
    ((List.range n).map f).getD i d = f i := by
  simp [List.getD_eq_getElem?_getD, List.getElem?_range h]

theorem blendChannel_mask_zero (o m : ℕ) : blendChannel o m 0 = o := by
  unfold blendChannel jsRound
  have h1 : ((o : ℚ) * (1 - (0 : ℕ) / 255) + (m : ℚ) * ((0 : ℕ) / 255)) = o := by
    push_cast; ring
  rw [h1]
  have h2 : ((o : ℚ) + 1 / 2) = ((o : ℤ) : ℚ) + 1 / 2 := by push_cast; ring
  rw [h2, Int.floor_int_add]
  norm_num

theorem blendChannel_mask_full (o m : ℕ) : blendChannel o m 255 = m := by
  unfold blendChannel jsRound
  have h1 : ((o : ℚ) * (1 - (255 : ℕ) / 255) + (m : ℚ) * ((255 : ℕ) / 255)) = m := by
    push_cast; ring
  rw [h1]
  have h2 : ((m : ℚ) + 1 / 2) = ((m : ℤ) : ℚ) + 1 / 2 := by push_cast; ring
  rw [h2, Int.floor_int_add]
  norm_num

/-! ## Machinery lemmas -/


theorem adj_symm {w h i j : ℕ} (hij : Adj w h i j) : Adj w h j i := by
  obtain ⟨hi, hj, hc⟩ := hij
  exact ⟨hj, hi, by tauto⟩

theorem adj_lt_right {w h i j : ℕ} (hij : Adj w h i j) : j < w * h := hij.2.1

theorem Reach.lt_right {fg : ℕ → Bool} {w h s j : ℕ}
    (hr : Reach fg w h s j) : j < w * h := by
  induction hr with
  | refl hi _ => exact hi
  | tail _ hadj _ _ => exact adj_lt_right hadj

theorem Reach.fg_right {fg : ℕ → Bool} {w h s j : ℕ}
    (hr : Reach fg w h s j) : fg j = true := by
  induction hr with
  | refl _ hfg => exact hfg
  | tail _ _ hfg _ => exact hfg

theorem Reach.lt_left {fg : ℕ → Bool} {w h s j : ℕ}
    (hr : Reach fg w h s j) : s < w * h := by
  induction hr with
  | refl hi _ => exact hi
  | tail _ _ _ ih => exact ih

theorem Reach.fg_left {fg : ℕ → Bool} {w h s j : ℕ}
    (hr : Reach fg w h s j) : fg s = true := by
  induction hr with
  | refl _ hfg => exact hfg
  | tail _ _ _ ih => exact ih

theorem Reach.trans {fg : ℕ → Bool} {w h a b c : ℕ}
    (hab : Reach fg w h a b) (hbc : Reach fg w h b c) : Reach fg w h a c := by
  induction hbc with
  | refl _ _ => exact hab
  | tail _ hadj hfg ih => exact Reach.tail ih hadj hfg

theorem Reach.symm {fg : ℕ → Bool} {w h a b : ℕ}
    (hab : Reach fg w h a b) : Reach fg w h b a := by
  induction hab with
  | refl hi hfg => exact Reach.refl _ hi hfg
  | tail hr hadj hfg ih =>
    refine Reach.trans ?_ ih
    exact Reach.tail (Reach.refl _ (adj_lt_right hadj) hfg) (adj_symm hadj) hr.fg_right

theorem reach_set_eq {fg : ℕ → Bool} {w h a b : ℕ}
    (hab : Reach fg w h a b) :
    {x | Reach fg w h a x} = {x | Reach fg w h b x} := by
  ext x
  exact ⟨fun hx => Reach.trans hab.symm hx, fun hx => Reach.trans hab hx⟩

theorem insertSorted_perm {α : Type} (le : α → α → Bool) (a : α)
    (l : List α) : (insertSorted le a l).Perm (a :: l) := by
  induction l with
  | nil => exact List.Perm.refl _
  | cons b bs ih =>
    unfold insertSorted
    split
    · exact ((ih.cons b).trans (List.Perm.swap a b bs))
    · exact List.Perm.refl _

theorem jsSort_perm {α : Type} (le : α → α → Bool) (l : List α) :
    (jsSort le l).Perm l := by
  induction l with
  | nil => exact List.Perm.refl _
  | cons a as ih =>
    exact (insertSorted_perm le a (jsSort le as)).trans (ih.cons a)

theorem insertSorted_pairwise {α : Type} {le : α → α → Bool}
    (htot : ∀ x y, le x y = true ∨ le y x = true)
    (htrans : ∀ x y z, le x y = true → le y z = true → le x z = true)
    (a : α) {l : List α} (hl : l.Pairwise (fun x y => le x y = true)) :
    (insertSorted le a l).Pairwise (fun x y => le x y = true) := by
  induction l with
  | nil => simp [insertSorted]
  | cons b bs ih =>
    rw [List.pairwise_cons] at hl
    obtain ⟨hb, hbs⟩ := hl
    unfold insertSorted
    split
    · rename_i hle
      rw [List.pairwise_cons]
      refine ⟨?_, ih hbs⟩
      intro x hx
      rw [(insertSorted_perm le a bs).mem_iff, List.mem_cons] at hx
      rcases hx with rfl | hx
      · exact hle
      · exact hb x hx
    · rename_i hle
      have hab : le a b = true := by
        rcases htot a b with hx | hx
        · exact hx
        · exact absurd hx hle
      rw [List.pairwise_cons]
      refine ⟨?_, List.pairwise_cons.mpr ⟨hb, hbs⟩⟩
      intro x hx
      rcases List.mem_cons.mp hx with rfl | hx
      · exact hab
      · exact htrans a b x hab (hb x hx)

theorem jsSort_pairwise {α : Type} {le : α → α → Bool}
    (htot : ∀ x y, le x y = true ∨ le y x = true)
    (htrans : ∀ x y z, le x y = true → le y z = true → le x z = true)
    (l : List α) : (jsSort le l).Pairwise (fun x y => le x y = true) := by
  induction l with
  | nil => simp [jsSort]
  | cons a as ih => exact insertSorted_pairwise htot htrans a ih

theorem topSelect_spec {α : Type} (sz : α → ℕ) (l : List α) (k : ℕ) :
    (∀ x ∈ (jsSort (fun a b => decide (sz b ≤ sz a)) l).take k, x ∈ l) ∧
    (∀ x ∈ l, x ∉ (jsSort (fun a b => decide (sz b ≤ sz a)) l).take k →
      ((jsSort (fun a b => decide (sz b ≤ sz a)) l).take k).length = k ∧
      ∀ y ∈ (jsSort (fun a b => decide (sz b ≤ sz a)) l).take k, sz x ≤ sz y) := by
  set le : α → α → Bool := fun a b => decide (sz b ≤ sz a) with hle
  have hperm := jsSort_perm le l
  have htot : ∀ x y, le x y = true ∨ le y x = true := by
    intro x y
    by_cases hxy : sz y ≤ sz x
    · exact Or.inl (by simp [hle, hxy])
    · exact Or.inr (by simp only [hle, decide_eq_true_eq]; omega)
  have htrans : ∀ x y z, le x y = true → le y z = true → le x z = true := by
    intro x y z hxy hyz
    simp only [hle, decide_eq_true_eq] at *
    omega
  have hsorted := jsSort_pairwise htot htrans l
  constructor
  · intro x hx
    exact hperm.mem_iff.mp (List.mem_of_mem_take hx)
  · intro x hxl hxtake
    have hxs : x ∈ jsSort le l := hperm.mem_iff.mpr hxl
    rw [← List.take_append_drop k (jsSort le l), List.mem_append] at hxs
    rcases hxs with hx | hx
    · exact absurd hx hxtake
    constructor
    · have hk : k < (jsSort le l).length := by
        by_contra hcon
        push_neg at hcon
        rw [List.drop_eq_nil_of_le hcon] at hx
        exact absurd hx (List.not_mem_nil x)
      simp [List.length_take, Nat.le_of_lt hk, Nat.min_eq_left (Nat.le_of_lt hk)]
    · intro y hy
      have hp := hsorted
      rw [← List.take_append_drop k (jsSort le l), List.pairwise_append] at hp
      have := hp.2.2 y hy x hx
      simpa [hle] using this


section WorklistLemmas

variable {E σ : Type} {w h : ℕ} {fg : ℕ → Bool} {valid : E → Option ℕ}
  {skip : (ℕ → ℕ) → ℕ → Bool} {expand : E → List E} {upd : σ → E → σ}
  {count : σ → ℕ} {label : ℕ}

theorem unlabeledCount_update {L : ℕ → ℕ} {idx : ℕ}
    (hidx : idx < w * h) (hfg : fg idx = true) (hL : L idx = 0)
    (hlabel : label ≠ 0) :
    unlabeledCount fg w h (fun j => if j = idx then label else L j) + 1 =
      unlabeledCount fg w h L := by
  unfold unlabeledCount
  have hset : (Finset.range (w * h)).filter
      (fun j => fg j = true ∧ (if j = idx then label else L j) = 0) =
      ((Finset.range (w * h)).filter (fun j => fg j = true ∧ L j = 0)).erase
        idx := by
    ext j
    by_cases hj : j = idx
    · subst hj
      simp [hlabel]
    · simp [Finset.mem_filter, Finset.mem_erase, hj]
  rw [hset, Finset.card_erase_of_mem]
  · have hmem : idx ∈ (Finset.range (w * h)).filter
        (fun j => fg j = true ∧ L j = 0) := by
      simp [Finset.mem_filter, Finset.mem_range, hidx, hfg, hL]
    have := Finset.card_pos.mpr ⟨idx, hmem⟩
    omega
  · simp [Finset.mem_filter, Finset.mem_range, hidx, hfg, hL]

theorem card_label_update {L : ℕ → ℕ} {idx n : ℕ}
    (hidx : idx < n) (hL : L idx ≠ label) :
    ((Finset.range n).filter
      (fun j => (if j = idx then label else L j) = label)).card =
      ((Finset.range n).filter (fun j => L j = label)).card + 1 := by
  have hset : (Finset.range n).filter
      (fun j => (if j = idx then label else L j) = label) =
      insert idx ((Finset.range n).filter (fun j => L j = label)) := by
    ext j
    by_cases hj : j = idx
    · subst hj
      simp [Finset.mem_filter, Finset.mem_range, hidx]
    · simp [Finset.mem_filter, Finset.mem_insert, hj]
  rw [hset, Finset.card_insert_of_not_mem]
  simp [Finset.mem_filter, hL]

theorem worklist_mono (hskip : ∀ L i, skip L i = false → L i = 0) :
    ∀ (fuel : ℕ) (L : ℕ → ℕ) (stack : List E) (s : σ) (L' : ℕ → ℕ) (s' : σ),
      worklist valid skip expand upd label fuel L stack s = some (L', s') →
      ∀ j, L j ≠ 0 → L' j = L j := by
  intro fuel
  induction fuel with
  | zero =>
    intro L stack s L' s' heq j hj
    cases stack with
    | nil =>
      simp only [worklist, Option.some.injEq, Prod.mk.injEq] at heq
      rw [← heq.1]
    | cons e rest => simp [worklist] at heq
  | succ fuel ih =>
    intro L stack s L' s' heq j hj
    cases stack with
    | nil =>
      simp only [worklist, Option.some.injEq, Prod.mk.injEq] at heq
      rw [← heq.1]
    | cons e rest =>
      rw [worklist] at heq
      cases hv : valid e with
      | none =>
        simp only [hv] at heq
        exact ih L rest s L' s' heq j hj
      | some idx =>
        simp only [hv] at heq
        by_cases hs : skip L idx
        · rw [if_pos hs] at heq
          exact ih L rest s L' s' heq j hj
        · rw [if_neg hs] at heq
          have hidx0 : L idx = 0 := hskip L idx (by
            simp only [Bool.not_eq_true] at hs
            exact hs)
          have hji : j ≠ idx := by
            intro hcontra
            rw [hcontra] at hj
            exact hj hidx0
          have := ih _ _ _ L' s' heq j (by simp [hji, hj])
          rw [this]
          simp [hji]

theorem worklist_terminates
    (hskipf : ∀ (L : ℕ → ℕ) i, skip L i = false ↔ (fg i = true ∧ L i = 0))
    (hvalid : ∀ e i, valid e = some i → i < w * h)
    (hexplen : ∀ e, (expand e).length ≤ 4) (hlabel : label ≠ 0) :
    ∀ (fuel : ℕ) (L : ℕ → ℕ) (stack : List E) (s : σ),
      5 * unlabeledCount fg w h L + stack.length ≤ fuel →
      (worklist valid skip expand upd label fuel L stack s).isSome := by
  intro fuel
  induction fuel with
  | zero =>
    intro L stack s hfuel
    cases stack with
    | nil => simp [worklist]
    | cons e rest => simp at hfuel
  | succ fuel ih =>
    intro L stack s hfuel
    cases stack with
    | nil => simp [worklist]
    | cons e rest =>
      rw [worklist]
      cases hv : valid e with
      | none =>
        simp only [hv]
        refine ih L rest s ?_
        simp only [List.length_cons] at hfuel
        omega
      | some idx =>
        simp only [hv]
        by_cases hs : skip L idx
        · rw [if_pos hs]
          refine ih L rest s ?_
          simp only [List.length_cons] at hfuel
          omega
        · rw [if_neg hs]
          have hcond := (hskipf L idx).mp (by
            simp only [Bool.not_eq_true] at hs
            exact hs)
          have hucount := unlabeledCount_update
            (hvalid e idx hv) hcond.1 hcond.2 hlabel
          refine ih _ _ _ ?_
          have hlen := hexplen e
          simp only [List.length_append, List.length_cons] at hfuel ⊢
          omega

end WorklistLemmas


section WorklistSpec

variable {E σ : Type} {w h : ℕ} {fg : ℕ → Bool} {valid : E → Option ℕ}
  {skip : (ℕ → ℕ) → ℕ → Bool} {expand : E → List E} {upd : σ → E → σ}
  {count : σ → ℕ} {label : ℕ}

theorem labels_closed_complete {L : ℕ → ℕ} {seed : ℕ}
    (hseedlab : L seed = label)
    (hclosed : ∀ j, L j = label → ∀ k, Adj w h j k → fg k = true →
      L k = label) :
    ∀ j, Reach fg w h seed j → L j = label := by
  intro j hr
  induction hr with
  | refl _ _ => exact hseedlab
  | tail _ hadj hfg ih => exact hclosed _ ih _ hadj hfg

theorem worklist_spec
    (hskipf : ∀ (L : ℕ → ℕ) i, skip L i = false ↔ (fg i = true ∧ L i = 0))
    (hvalid : ∀ e i, valid e = some i → i < w * h)
    (hexpS : ∀ e i, valid e = some i → ∀ e' ∈ expand e, ∀ j,
      valid e' = some j → Adj w h i j)
    (hexpC : ∀ e i, valid e = some i → ∀ j, Adj w h i j → fg j = true →
      ∃ e' ∈ expand e, valid e' = some j)
    (hcount : ∀ (s : σ) (e : E), count (upd s e) = count s + 1)
    (hlabel : label ≠ 0) {seed : ℕ} (hseedfg : fg seed = true) :
    ∀ (fuel : ℕ) (L : ℕ → ℕ) (stack : List E) (s : σ),
      (∀ j, L j = label → Reach fg w h seed j) →
      (∀ j, Reach fg w h seed j → L j = 0 ∨ L j = label) →
      (∀ e ∈ stack, ∀ j, valid e = some j → fg j = true →
        Reach fg w h seed j) →
      (L seed = label ∨ ∃ e ∈ stack, valid e = some seed) →
      (∀ j, L j = label → ∀ k, Adj w h j k → fg k = true →
        (L k = label ∨ ∃ e ∈ stack, valid e = some k)) →
      ∀ (L' : ℕ → ℕ) (s' : σ),
        worklist valid skip expand upd label fuel L stack s = some (L', s') →
        ((∀ j, Reach fg w h seed j → L' j = label) ∧
          (∀ j, ¬ Reach fg w h seed j → L' j = L j) ∧
          count s' +
            ((Finset.range (w * h)).filter (fun j => L j = label)).card =
          count s +
            ((Finset.range (w * h)).filter (fun j => L' j = label)).card) := by
  intro fuel
  induction fuel with
  | zero =>
    intro L stack s h1 h2 h3 h4 h5 L' s' heq
    cases stack with
    | nil =>
      simp only [worklist, Option.some.injEq, Prod.mk.injEq] at heq
      obtain ⟨hL, hs⟩ := heq
      subst hL hs
      have hseedlab : L seed = label := by
        rcases h4 with hl | ⟨e, he, _⟩
        · exact hl
        · exact absurd he (List.not_mem_nil e)
      refine ⟨?_, fun j _ => rfl, rfl⟩
      refine labels_closed_complete hseedlab ?_
      intro j hj k hadj hfgk
      rcases h5 j hj k hadj hfgk with hlk | ⟨e, he, _⟩
      · exact hlk
      · exact absurd he (List.not_mem_nil e)
    | cons e rest => simp [worklist] at heq
  | succ fuel ih =>
    intro L stack s h1 h2 h3 h4 h5 L' s' heq
    cases stack with
    | nil =>
      simp only [worklist, Option.some.injEq, Prod.mk.injEq] at heq
      obtain ⟨hL, hs⟩ := heq
      subst hL hs
      have hseedlab : L seed = label := by
        rcases h4 with hl | ⟨e, he, _⟩
        · exact hl
        · exact absurd he (List.not_mem_nil e)
      refine ⟨?_, fun j _ => rfl, rfl⟩
      refine labels_closed_complete hseedlab ?_
      intro j hj k hadj hfgk
      rcases h5 j hj k hadj hfgk with hlk | ⟨e, he, _⟩
      · exact hlk
      · exact absurd he (List.not_mem_nil e)
    | cons e rest =>
      rw [worklist] at heq
      cases hv : valid e with
      | none =>
        simp only [hv] at heq
        refine ih L rest s h1 h2 ?_ ?_ ?_ L' s' heq
        · exact fun e' he' => h3 e' (List.mem_cons_of_mem e he')
        · rcases h4 with hl | ⟨e', he', hve'⟩
          · exact Or.inl hl
          · rcases List.mem_cons.mp he' with rfl | he'
            · rw [hv] at hve'
              exact absurd hve' (by simp)
            · exact Or.inr ⟨e', he', hve'⟩
        · intro j hj k hadj hfgk
          rcases h5 j hj k hadj hfgk with hlk | ⟨e', he', hve'⟩
          · exact Or.inl hlk
          · rcases List.mem_cons.mp he' with rfl | he'
            · rw [hv] at hve'
              exact absurd hve' (by simp)
            · exact Or.inr ⟨e', he', hve'⟩
      | some idx =>
        simp only [hv] at heq
        have hidxlt := hvalid e idx hv
        by_cases hs : skip L idx
        · rw [if_pos hs] at heq
          have hnot : ¬(fg idx = true ∧ L idx = 0) := by
            intro hc
            rw [(hskipf L idx).mpr hc] at hs
            exact Bool.false_ne_true hs
          refine ih L rest s h1 h2 ?_ ?_ ?_ L' s' heq
          · exact fun e' he' => h3 e' (List.mem_cons_of_mem e he')
          · rcases h4 with hl | ⟨e', he', hve'⟩
            · exact Or.inl hl
            · rcases List.mem_cons.mp he' with rfl | he'
              · rw [hv] at hve'
                have hseedidx : idx = seed := by
                  simpa using hve'
                have hnotseed : ¬(fg seed = true ∧ L seed = 0) :=
                  hseedidx ▸ hnot
                have hC : Reach fg w h seed seed :=
                  Reach.refl seed (hseedidx ▸ hidxlt) hseedfg
                rcases h2 seed hC with h0 | hl
                · exact absurd ⟨hseedfg, h0⟩ hnotseed
                · exact Or.inl hl
              · exact Or.inr ⟨e', he', hve'⟩
          · intro j hj k hadj hfgk
            rcases h5 j hj k hadj hfgk with hlk | ⟨e', he', hve'⟩
            · exact Or.inl hlk
            · rcases List.mem_cons.mp he' with rfl | he'
              · rw [hv] at hve'
                have hkidx : idx = k := by simpa using hve'
                have hnotk : ¬(fg k = true ∧ L k = 0) := hkidx ▸ hnot
                have hC : Reach fg w h seed k :=
                  h3 e' (List.mem_cons_self e' rest) k (hkidx ▸ hv) hfgk
                rcases h2 k hC with h0 | hl
                · exact absurd ⟨hfgk, h0⟩ hnotk
                · exact Or.inl hl
              · exact Or.inr ⟨e', he', hve'⟩
        · rw [if_neg hs] at heq
          have hcond := (hskipf L idx).mp (by
            simp only [Bool.not_eq_true] at hs
            exact hs)
          have hreachidx : Reach fg w h seed idx :=
            h3 e (List.mem_cons_self e rest) idx hv hcond.1
          have h1u : ∀ j, (if j = idx then label else L j) = label →
              Reach fg w h seed j := by
            intro j hj
            by_cases hji : j = idx
            · subst hji; exact hreachidx
            · rw [if_neg hji] at hj
              exact h1 j hj
          have h2u : ∀ j, Reach fg w h seed j →
              (if j = idx then label else L j) = 0 ∨
              (if j = idx then label else L j) = label := by
            intro j hj
            by_cases hji : j = idx
            · rw [if_pos hji]
              exact Or.inr rfl
            · rw [if_neg hji]
              exact h2 j hj
          have h3u : ∀ e' ∈ expand e ++ rest, ∀ j, valid e' = some j →
              fg j = true → Reach fg w h seed j := by
            intro e' he' j hve' hfgj
            rcases List.mem_append.mp he' with he' | he'
            · exact Reach.tail hreachidx (hexpS e idx hv e' he' j hve') hfgj
            · exact h3 e' (List.mem_cons_of_mem e he') j hve' hfgj
          have h4u : (if seed = idx then label else L seed) = label ∨
              ∃ e' ∈ expand e ++ rest, valid e' = some seed := by
            by_cases hsi : seed = idx
            · exact Or.inl (if_pos hsi)
            · rcases h4 with hl | ⟨e', he', hve'⟩
              · exact Or.inl (by rw [if_neg hsi]; exact hl)
              · rcases List.mem_cons.mp he' with rfl | he'
                · rw [hv] at hve'
                  have : idx = seed := by simpa using hve'
                  exact absurd this.symm hsi
                · exact Or.inr ⟨e', List.mem_append_right _ he', hve'⟩
          have h5u : ∀ j, (if j = idx then label else L j) = label →
              ∀ k, Adj w h j k → fg k = true →
              ((if k = idx then label else L k) = label ∨
                ∃ e' ∈ expand e ++ rest, valid e' = some k) := by
            intro j hj k hadj hfgk
            by_cases hki : k = idx
            · exact Or.inl (if_pos hki)
            · by_cases hji : j = idx
              · obtain ⟨e', he', hve'⟩ := hexpC e idx hv k (hji ▸ hadj) hfgk
                exact Or.inr ⟨e', List.mem_append_left _ he', hve'⟩
              · rw [if_neg hji] at hj
                rcases h5 j hj k hadj hfgk with hlk | ⟨e', he', hve'⟩
                · exact Or.inl (by rw [if_neg hki]; exact hlk)
                · rcases List.mem_cons.mp he' with rfl | he'
                  · rw [hv] at hve'
                    have : idx = k := by simpa using hve'
                    exact absurd this.symm hki
                  · exact Or.inr ⟨e', List.mem_append_right _ he', hve'⟩
          obtain ⟨c1, c2, c3⟩ := ih (fun j => if j = idx then label else L j)
            (expand e ++ rest) (upd s e) h1u h2u h3u h4u h5u L' s' heq
          refine ⟨c1, ?_, ?_⟩
          · intro j hnr
            rw [c2 j hnr]
            have hji : j ≠ idx := fun hc => hnr (hc ▸ hreachidx)
            rw [if_neg hji]
          · have hLne : L idx ≠ label := by
              rw [hcond.2]
              exact fun hc => hlabel hc.symm
            have hcard := card_label_update hidxlt hLne
            rw [hcount s e] at c3
            omega

end WorklistSpec


section ScanLemmas

variable {E σ ρ A : Type} {w h : ℕ} {fg : ℕ → Bool} {valid : E → Option ℕ}
  {skip : (ℕ → ℕ) → ℕ → Bool} {expand : E → List E} {upd : σ → E → σ}
  {count : σ → ℕ} {aEntry : A → E} {aIdx : A → ℕ} {initStat : A → σ}
  {mkRegion : ℕ → σ → ρ} {rId rSize : ρ → ℕ}

theorem scanInv_label_mem {labels : ℕ → ℕ} {regs : List ρ} {next : ℕ}
    (hinv : ScanInv fg w h rId rSize labels regs next) {j : ℕ}
    (hj : labels j ≠ 0) : ∃ r ∈ regs, rId r = labels j := by
  obtain ⟨h1, h2, h3, _⟩ := hinv
  have hlt := (h1 j hj).2.2
  have hmem : labels j ∈ regs.map rId := by
    rw [h2, List.mem_range'_1]
    omega
  obtain ⟨r, hr, hrid⟩ := List.mem_map.mp hmem
  exact ⟨r, hr, hrid⟩

theorem scanInv_reach_zero {labels : ℕ → ℕ} {regs : List ρ} {next : ℕ}
    (hinv : ScanInv fg w h rId rSize labels regs next) {i : ℕ}
    (hi0 : labels i = 0) : ∀ j, Reach fg w h i j → labels j = 0 := by
  intro j hr
  by_contra hj
  obtain ⟨r, hrmem, hrid⟩ := scanInv_label_mem hinv hj
  obtain ⟨sd, _, _, hchar, _⟩ := hinv.2.2.2 r hrmem
  have hsdj : Reach fg w h sd j := (hchar j).mp hrid.symm
  have hsdi : Reach fg w h sd i := hsdj.trans hr.symm
  have h0 : labels i = rId r := (hchar i).mpr hsdi
  rw [hi0] at h0
  exact hj (hrid.symm.trans h0.symm)

theorem unlabeledCount_le (fg : ℕ → Bool) (w h : ℕ) (L : ℕ → ℕ) :
    unlabeledCount fg w h L ≤ w * h := by
  unfold unlabeledCount
  calc ((Finset.range (w * h)).filter _).card ≤ (Finset.range (w * h)).card :=
        Finset.card_filter_le _ _
    _ = w * h := Finset.card_range _

theorem scanLoop_spec
    (hskipf : ∀ (L : ℕ → ℕ) i, skip L i = false ↔ (fg i = true ∧ L i = 0))
    (hvalid : ∀ e i, valid e = some i → i < w * h)
    (hexpS : ∀ e i, valid e = some i → ∀ e' ∈ expand e, ∀ j,
      valid e' = some j → Adj w h i j)
    (hexpC : ∀ e i, valid e = some i → ∀ j, Adj w h i j → fg j = true →
      ∃ e' ∈ expand e, valid e' = some j)
    (hexplen : ∀ e, (expand e).length ≤ 4)
    (hcount : ∀ (s : σ) (e : E), count (upd s e) = count s + 1)
    (hinit : ∀ a, count (initStat a) = 0)
    (hrId : ∀ l s, rId (mkRegion l s) = l)
    (hrSize : ∀ l s, rSize (mkRegion l s) = count s) :
    ∀ (seeds : List A),
      (∀ a ∈ seeds, valid (aEntry a) = some (aIdx a)) →
      ∀ (labels : ℕ → ℕ) (regs : List ρ) (next : ℕ),
      ScanInv fg w h rId rSize labels regs next →
      (ScanInv fg w h rId rSize
        (scanLoop valid skip expand upd fg aEntry aIdx initStat mkRegion w h
          seeds labels regs next).1
        (scanLoop valid skip expand upd fg aEntry aIdx initStat mkRegion w h
          seeds labels regs next).2.1
        (scanLoop valid skip expand upd fg aEntry aIdx initStat mkRegion w h
          seeds labels regs next).2.2 ∧
      (∀ j, labels j ≠ 0 →
        (scanLoop valid skip expand upd fg aEntry aIdx initStat mkRegion w h
          seeds labels regs next).1 j = labels j) ∧
      (∀ a ∈ seeds, fg (aIdx a) = true →
        (scanLoop valid skip expand upd fg aEntry aIdx initStat mkRegion w h
          seeds labels regs next).1 (aIdx a) ≠ 0)) := by
  intro seeds
  induction seeds with
  | nil =>
    intro _ labels regs next hinv
    refine ⟨hinv, fun j _ => rfl, ?_⟩
    intro a ha
    exact absurd ha (List.not_mem_nil a)
  | cons a as ih =>
    intro haIdxs labels regs next hinv
    have hAa : valid (aEntry a) = some (aIdx a) :=
      haIdxs a (List.mem_cons_self a as)
    have hArest : ∀ b ∈ as, valid (aEntry b) = some (aIdx b) :=
      fun b hb => haIdxs b (List.mem_cons_of_mem a hb)
    rw [scanLoop]
    by_cases hcheck : fg (aIdx a) = true ∧ labels (aIdx a) = 0
    · rw [if_pos hcheck]
      have hnext0 : next ≠ 0 := by
        obtain ⟨_, _, h3, _⟩ := hinv
        omega
      have hterm : (worklist valid skip expand upd next (5 * (w * h) + 1)
          labels [aEntry a] (initStat a)).isSome :=
        worklist_terminates hskipf hvalid hexplen hnext0
          (5 * (w * h) + 1) labels [aEntry a] (initStat a) (by
            have := unlabeledCount_le fg w h labels
            simp only [List.length_cons, List.length_nil]
            omega)
      obtain ⟨res, hres⟩ := Option.isSome_iff_exists.mp hterm
      obtain ⟨labels', s'⟩ := res
      rw [hres]
      have hseedlt : aIdx a < w * h := hvalid (aEntry a) (aIdx a) hAa
      have hreach0 : ∀ j, Reach fg w h (aIdx a) j → labels j = 0 :=
        scanInv_reach_zero hinv hcheck.2
      have hnolabel : ∀ j, labels j ≠ next := by
        intro j hj
        have hne : labels j ≠ 0 := by
          rw [hj]
          exact hnext0
        have := (hinv.1 j hne).2.2
        omega
      obtain ⟨c1, c2, c3⟩ := worklist_spec hskipf hvalid hexpS hexpC hcount
        hnext0 hcheck.1 (5 * (w * h) + 1) labels [aEntry a] (initStat a)
        (fun j hj => absurd hj (hnolabel j))
        (fun j hj => Or.inl (hreach0 j hj))
        (by
          intro e he j hve hfgj
          rw [List.mem_singleton] at he
          subst he
          rw [hAa] at hve
          have : aIdx a = j := by simpa using hve
          subst this
          exact Reach.refl _ hseedlt hfgj)
        (Or.inr ⟨aEntry a, List.mem_singleton_self _, hAa⟩)
        (fun j hj => absurd hj (hnolabel j))
        labels' s' hres
      have hlabelchar : ∀ j, labels' j = next ↔ Reach fg w h (aIdx a) j := by
        intro j
        constructor
        · intro hj
          by_cases hr : Reach fg w h (aIdx a) j
          · exact hr
          · rw [c2 j hr] at hj
            exact absurd hj (hnolabel j)
        · exact c1 j
      have hmono1 : ∀ j, labels j ≠ 0 → labels' j = labels j := by
        intro j hj
        by_cases hr : Reach fg w h (aIdx a) j
        · exact absurd (hreach0 j hr) hj
        · exact c2 j hr
      have hCset : {j | Reach fg w h (aIdx a) j} =
          ↑((Finset.range (w * h)).filter (fun j => labels' j = next)) := by
        ext j
        simp only [Set.mem_setOf_eq, Finset.coe_filter, Finset.mem_range,
          Set.mem_setOf_eq]
        constructor
        · intro hr
          exact ⟨hr.lt_right, (hlabelchar j).mpr hr⟩
        · intro ⟨_, hj⟩
          exact (hlabelchar j).mp hj
      have hzerocard : ((Finset.range (w * h)).filter
          (fun j => labels j = next)).card = 0 := by
        rw [Finset.card_eq_zero, Finset.filter_eq_empty_iff]
        intro j _
        exact hnolabel j
      have hsize : count s' = {j | Reach fg w h (aIdx a) j}.ncard := by
        rw [hCset, Set.ncard_coe_Finset]
        rw [hzerocard, hinit a] at c3
        omega
      have hinv' : ScanInv fg w h rId rSize labels'
          (regs ++ [mkRegion next s']) (next + 1) := by
        obtain ⟨i1, i2, i3, i4⟩ := hinv
        refine ⟨?_, ?_, ?_, ?_⟩
        · intro j hj
          by_cases hr : Reach fg w h (aIdx a) j
          · exact ⟨hr.fg_right, hr.lt_right, by
              rw [(hlabelchar j).mpr hr]
              omega⟩
          · rw [c2 j hr] at hj ⊢
            obtain ⟨hfgj, hjlt, hjnext⟩ := i1 j hj
            exact ⟨hfgj, hjlt, by omega⟩
        · rw [List.map_append, i2, List.length_append]
          simp only [List.map_cons, List.map_nil, hrId, List.length_cons,
            List.length_nil]
          rw [i3]
          have hrc : List.range' 1 (regs.length + 1) =
              List.range' 1 regs.length ++ [1 + 1 * regs.length] :=
            List.range'_concat 1 regs.length
          simp only [one_mul] at hrc
          rw [Nat.zero_add, hrc, Nat.add_comm 1 regs.length]
        · rw [List.length_append]
          simp only [List.length_cons, List.length_nil]
          omega
        · intro r hr
          rcases List.mem_append.mp hr with hrold | hrnew
          · obtain ⟨sd, hsdfg, hsdlt, hchar, hsz⟩ := i4 r hrold
            refine ⟨sd, hsdfg, hsdlt, ?_, hsz⟩
            intro j
            rw [← hchar j]
            have hidne : rId r ≠ next := by
              have : rId r ∈ regs.map rId := List.mem_map_of_mem rId hrold
              rw [i2, List.mem_range'_1] at this
              omega
            constructor
            · intro hj
              by_cases hreach : Reach fg w h (aIdx a) j
              · rw [(hlabelchar j).mpr hreach] at hj
                exact absurd hj.symm hidne
              · rw [← c2 j hreach]
                exact hj
            · intro hj
              by_cases hreach : Reach fg w h (aIdx a) j
              · have h0 := hreach0 j hreach
                rw [h0] at hj
                have : rId r ≠ 0 := by
                  have : rId r ∈ regs.map rId := List.mem_map_of_mem rId hrold
                  rw [i2, List.mem_range'_1] at this
                  omega
                exact absurd hj.symm this
              · rw [c2 j hreach]
                exact hj
          · rw [List.mem_singleton] at hrnew
            subst hrnew
            refine ⟨aIdx a, hcheck.1, hseedlt, ?_, ?_⟩
            · intro j
              rw [hrId]
              exact hlabelchar j
            · rw [hrSize, hsize]
      obtain ⟨f1, f2, f3⟩ := ih hArest labels' (regs ++ [mkRegion next s'])
        (next + 1) hinv'
      refine ⟨f1, ?_, ?_⟩
      · intro j hj
        rw [f2 j (by rw [hmono1 j hj]; exact hj), hmono1 j hj]
      · intro b hb hfgb
        rcases List.mem_cons.mp hb with rfl | hb
        · have hlab : labels' (aIdx b) = next :=
            (hlabelchar (aIdx b)).mpr (Reach.refl _ hseedlt hcheck.1)
          rw [f2 (aIdx b) (by rw [hlab]; exact hnext0)]
          rw [hlab]
          exact hnext0
        · exact f3 b hb hfgb
    · rw [if_neg hcheck]
      obtain ⟨f1, f2, f3⟩ := ih hArest labels regs next hinv
      refine ⟨f1, f2, ?_⟩
      intro b hb hfgb
      rcases List.mem_cons.mp hb with rfl | hb
      · have : labels (aIdx b) ≠ 0 := by
          intro h0
          exact hcheck ⟨hfgb, h0⟩
        rw [f2 (aIdx b) this]
        exact this
      · exact f3 b hb hfgb

end ScanLemmas


/-! ## Instance lemmas for the route-handler labeler (index entries) -/

theorem idx_lt_of_coord {w h x y : ℕ} (hx : x < w) (hy : y < h) :
    y * w + x < w * h := by
  calc y * w + x < y * w + w := by omega
    _ = (y + 1) * w := (Nat.succ_mul y w).symm
    _ ≤ h * w := Nat.mul_le_mul_right w hy
    _ = w * h := Nat.mul_comm h w

theorem row_lt_of_idx {w h y x : ℕ} (_hx : x < w) (hlt : y * w + x < w * h) :
    y < h := by
  by_contra hcon
  push_neg at hcon
  have hm : h * w ≤ y * w := Nat.mul_le_mul_right w hcon
  rw [Nat.mul_comm h w] at hm
  omega

theorem succ_mod_of_lt {w i : ℕ} (hw : 0 < w) (hx : i % w < w - 1) :
    (i + 1) % w = i % w + 1 := by
  have hd := Nat.mod_add_div i w
  have h1 : i + 1 = (i % w + 1) + w * (i / w) := by omega
  rw [h1, Nat.add_mul_mod_self_left, Nat.mod_eq_of_lt (by omega)]

theorem succ_mod_zero_of_eq {w i : ℕ} (hw : 0 < w) (hx : i % w = w - 1) :
    (i + 1) % w = 0 := by
  have hd := Nat.mod_add_div i w
  have h1 : i + 1 = w * (i / w + 1) := by rw [Nat.mul_add, Nat.mul_one]; omega
  rw [h1, Nat.mul_mod_right]

theorem pos_w_of_lt {w h i : ℕ} (hi : i < w * h) : 0 < w := by
  rcases Nat.eq_zero_or_pos w with rfl | hw
  · simp at hi
  · exact hw

theorem skipIdx_iff (rawMask : ℕ → ℕ) : ∀ (L : ℕ → ℕ) (i : ℕ),
    skipIdx rawMask L i = false ↔
      ((fun k => decide (128 ≤ rawMask k)) i = true ∧ L i = 0) := by
  intro L i
  simp only [skipIdx, Bool.or_eq_false_iff, Bool.not_eq_false', beq_iff_eq,
    decide_eq_false_iff_not, decide_eq_true_eq, Nat.not_lt]
  tauto

theorem validIdx_eq {w h i j : ℕ} :
    validIdx w h i = some j ↔ i < w * h ∧ j = i := by
  constructor
  · intro hs
    unfold validIdx at hs
    split at hs
    · rename_i hlt
      injection hs with hji
      exact ⟨hlt, hji.symm⟩
    · exact absurd hs (by simp)
  · rintro ⟨hlt, rfl⟩
    unfold validIdx
    rw [if_pos hlt]

theorem validIdx_sound {w h : ℕ} :
    ∀ (i j : ℕ), validIdx w h i = some j → j < w * h := by
  intro i j hv
  obtain ⟨hlt, rfl⟩ := validIdx_eq.mp hv
  exact hlt

theorem mem_ite_singleton {c : Prop} [Decidable c] {v m : ℕ}
    (hm : m ∈ (if c then [v] else ([] : List ℕ))) : c ∧ m = v := by
  split at hm
  · rename_i hc
    rw [List.mem_singleton] at hm
    exact ⟨hc, hm⟩
  · exact absurd hm (List.not_mem_nil m)

theorem expandIdx_length (w h idx : ℕ) : (expandIdx w h idx).length ≤ 4 := by
  unfold expandIdx
  dsimp only
  split_ifs <;> simp

theorem expandIdx_sound {w h i : ℕ} (hi : i < w * h) :
    ∀ m ∈ expandIdx w h i, ∀ j, validIdx w h m = some j → Adj w h i j := by
  have hw : 0 < w := pos_w_of_lt hi
  intro m hm j hv
  obtain ⟨hjlt, rfl⟩ := validIdx_eq.mp hv
  unfold expandIdx at hm
  simp only [List.mem_append] at hm
  rcases hm with ((hm | hm) | hm) | hm
  · obtain ⟨hc, rfl⟩ := mem_ite_singleton hm
    exact ⟨hi, hjlt, Or.inr (Or.inr (Or.inl rfl))⟩
  · obtain ⟨hc, rfl⟩ := mem_ite_singleton hm
    have hwle : w ≤ i := by
      by_contra hcon
      push_neg at hcon
      rw [Nat.div_eq_of_lt hcon] at hc
      exact absurd hc (by omega)
    exact ⟨hi, hjlt, Or.inr (Or.inr (Or.inr (by omega)))⟩
  · obtain ⟨hc, rfl⟩ := mem_ite_singleton hm
    refine ⟨hi, hjlt, Or.inl ⟨rfl, ?_⟩⟩
    rw [succ_mod_of_lt hw hc]
    omega
  · obtain ⟨hc, rfl⟩ := mem_ite_singleton hm
    have hipos : 0 < i := by
      have := Nat.mod_le i w
      omega
    refine ⟨hi, hjlt, Or.inr (Or.inl ⟨by omega, ?_⟩)⟩
    have hieq : i - 1 + 1 = i := by omega
    rw [hieq]
    omega

theorem expandIdx_complete {w h i : ℕ} (hi : i < w * h) :
    ∀ j, Adj w h i j → ∃ m ∈ expandIdx w h i, validIdx w h m = some j := by
  have hw : 0 < w := pos_w_of_lt hi
  intro j hadj
  obtain ⟨_, hjlt, hcase⟩ := hadj
  have hvj : validIdx w h j = some j := validIdx_eq.mpr ⟨hjlt, rfl⟩
  refine ⟨j, ?_, hvj⟩
  unfold expandIdx
  simp only [List.mem_append]
  rcases hcase with ⟨rfl, hmod⟩ | ⟨hij, hmod⟩ | rfl | hij
  · have hx : i % w < w - 1 := by
      by_contra hcon
      push_neg at hcon
      have hxw : i % w < w := Nat.mod_lt i hw
      have hxeq : i % w = w - 1 := by omega
      exact hmod (succ_mod_zero_of_eq hw hxeq)
    simp [hx]
  · have hx : 0 < i % w := by
      rcases Nat.eq_zero_or_pos (i % w) with h0 | hp
      · exact absurd (hij ▸ h0) hmod
      · exact hp
    have hjval : j = i - 1 := by omega
    rw [hjval]
    simp [hx]
  · have hy : i / w < h - 1 := by
      rw [Nat.div_lt_iff_lt_mul hw]
      have h1 : (h - 1) * w = h * w - w := Nat.sub_one_mul h w
      rw [h1, Nat.mul_comm h w]
      omega
    simp [hy]
  · have hy : 0 < i / w := Nat.div_pos (by omega) hw
    have hjval : j = i - w := by omega
    rw [hjval]
    simp [hy]


/-! ## Instance lemmas for the mask-utilities labeler (coordinate entries) -/

theorem skipCoord_iff (binaryMask : ℕ → ℕ) : ∀ (L : ℕ → ℕ) (i : ℕ),
    skipCoord binaryMask L i = false ↔
      ((fun k => binaryMask k == 1) i = true ∧ L i = 0) := by
  intro L i
  simp only [skipCoord, Bool.or_eq_false_iff, Bool.not_eq_false', beq_iff_eq]

theorem validCoord_eq {w h : ℕ} {p : ℤ × ℤ} {i : ℕ} :
    validCoord w h p = some i ↔
      (0 ≤ p.1 ∧ p.1 < (w : ℤ) ∧ 0 ≤ p.2 ∧ p.2 < (h : ℤ) ∧
        i = p.2.toNat * w + p.1.toNat) := by
  unfold validCoord
  split
  · rename_i hbad
    constructor
    · intro hs
      exact absurd hs (by simp)
    · rintro ⟨h1, h2, h3, h4, _⟩
      rcases hbad with hb | hb | hb | hb <;> omega
  · rename_i hbad
    push_neg at hbad
    obtain ⟨h1, h2, h3, h4⟩ := hbad
    constructor
    · intro hs
      injection hs with hi
      exact ⟨h1, h2, h3, h4, hi.symm⟩
    · rintro ⟨_, _, _, _, rfl⟩
      rfl

theorem validCoord_sound {w h : ℕ} :
    ∀ (p : ℤ × ℤ) (i : ℕ), validCoord w h p = some i → i < w * h := by
  intro p i hv
  obtain ⟨h1, h2, h3, h4, rfl⟩ := validCoord_eq.mp hv
  exact idx_lt_of_coord (by omega) (by omega)

theorem expandCoord_length (p : ℤ × ℤ) : (expandCoord p).length ≤ 4 := by
  simp [expandCoord]

theorem validCoord_mk_eq {w h : ℕ} {x y : ℤ} {i : ℕ} :
    validCoord w h (x, y) = some i ↔
      (0 ≤ x ∧ x < (w : ℤ) ∧ 0 ≤ y ∧ y < (h : ℤ) ∧
        i = y.toNat * w + x.toNat) := validCoord_eq

theorem expandCoord_sound {w h : ℕ} :
    ∀ (p : ℤ × ℤ) (i : ℕ), validCoord w h p = some i →
    ∀ e' ∈ expandCoord p, ∀ j, validCoord w h e' = some j → Adj w h i j := by
  intro p i hv e' he' j hvj
  obtain ⟨hx0, hxw, hy0, hyh, rfl⟩ := validCoord_eq.mp hv
  have hX : p.1.toNat < w := by omega
  have hY : p.2.toNat < h := by omega
  simp only [expandCoord, List.mem_cons, List.not_mem_nil, or_false] at he'
  have hmulcomm : p.2.toNat * w = w * p.2.toNat := Nat.mul_comm _ w
  rcases he' with rfl | rfl | rfl | rfl
  · obtain ⟨_, _, hy1, _, rfl⟩ := validCoord_mk_eq.mp hvj
    have htn : (p.2 - 1).toNat = p.2.toNat - 1 := by omega
    rw [htn]
    have hsub : (p.2.toNat - 1) * w = p.2.toNat * w - w :=
      Nat.sub_one_mul p.2.toNat w
    have hge : w ≤ p.2.toNat * w := Nat.le_mul_of_pos_left w (by omega)
    refine ⟨idx_lt_of_coord hX hY, idx_lt_of_coord hX (by omega), ?_⟩
    exact Or.inr (Or.inr (Or.inr (by omega)))
  · obtain ⟨_, _, _, hy2, rfl⟩ := validCoord_mk_eq.mp hvj
    have htn : (p.2 + 1).toNat = p.2.toNat + 1 := by omega
    rw [htn]
    have hsucc : (p.2.toNat + 1) * w = p.2.toNat * w + w :=
      Nat.succ_mul p.2.toNat w
    refine ⟨idx_lt_of_coord hX hY, idx_lt_of_coord hX (by omega), ?_⟩
    exact Or.inr (Or.inr (Or.inl (by omega)))
  · obtain ⟨hx1, _, _, _, rfl⟩ := validCoord_mk_eq.mp hvj
    have htn : (p.1 - 1).toNat = p.1.toNat - 1 := by omega
    rw [htn]
    have hX1 : 1 ≤ p.1.toNat := by omega
    refine ⟨idx_lt_of_coord hX hY, idx_lt_of_coord (by omega) hY,
      Or.inr (Or.inl ⟨by omega, ?_⟩)⟩
    have hj1 : p.2.toNat * w + (p.1.toNat - 1) + 1 =
        p.1.toNat + w * p.2.toNat := by omega
    rw [hj1, Nat.add_mul_mod_self_left, Nat.mod_eq_of_lt hX]
    omega
  · obtain ⟨_, hx2, _, _, rfl⟩ := validCoord_mk_eq.mp hvj
    have htn : (p.1 + 1).toNat = p.1.toNat + 1 := by omega
    rw [htn]
    have hX1 : p.1.toNat + 1 < w := by omega
    refine ⟨idx_lt_of_coord hX hY, idx_lt_of_coord hX1 hY,
      Or.inl ⟨by omega, ?_⟩⟩
    have hi1 : p.2.toNat * w + p.1.toNat + 1 =
        (p.1.toNat + 1) + w * p.2.toNat := by omega
    rw [hi1, Nat.add_mul_mod_self_left, Nat.mod_eq_of_lt hX1]
    omega

theorem expandCoord_complete {w h : ℕ} :
    ∀ (p : ℤ × ℤ) (i : ℕ), validCoord w h p = some i →
    ∀ j, Adj w h i j → ∃ e' ∈ expandCoord p, validCoord w h e' = some j := by
  intro p i hv j hadj
  obtain ⟨hx0, hxw, hy0, hyh, rfl⟩ := validCoord_eq.mp hv
  have hX : p.1.toNat < w := by omega
  have hY : p.2.toNat < h := by omega
  have hw : 0 < w := by omega
  obtain ⟨_, hjlt, hcase⟩ := hadj
  rcases hcase with ⟨rfl, hmod⟩ | ⟨hij, hmod⟩ | rfl | hij
  · have hX1 : p.1.toNat + 1 < w := by
      by_contra hcon
      push_neg at hcon
      have hxeq : p.1.toNat + 1 = w := by omega
      have hi1 : p.2.toNat * w + p.1.toNat + 1 = w * (1 + p.2.toNat) := by
        have hmulw : w * (1 + p.2.toNat) = w + w * p.2.toNat := by
          rw [Nat.mul_add, Nat.mul_one]
        have hmulc : p.2.toNat * w = w * p.2.toNat := Nat.mul_comm _ w
        omega
      rw [hi1, Nat.mul_mod_right] at hmod
      exact hmod rfl
    refine ⟨(p.1 + 1, p.2), by simp [expandCoord], validCoord_mk_eq.mpr
      ⟨by omega, by omega, hy0, hyh, ?_⟩⟩
    have htn : (p.1 + 1).toNat = p.1.toNat + 1 := by omega
    rw [htn]
    omega
  · have hX1 : 0 < p.1.toNat := by
      rcases Nat.eq_zero_or_pos p.1.toNat with h0 | hp
      · have hz : (j + 1) % w = 0 := by
          have hj1 : j + 1 = p.2.toNat * w + p.1.toNat := by omega
          rw [hj1, h0, Nat.add_zero, Nat.mul_comm, Nat.mul_mod_right]
        exact absurd hz hmod
      · exact hp
    refine ⟨(p.1 - 1, p.2), by simp [expandCoord], validCoord_mk_eq.mpr
      ⟨by omega, by omega, hy0, hyh, ?_⟩⟩
    have htn : (p.1 - 1).toNat = p.1.toNat - 1 := by omega
    rw [htn]
    omega
  · have hY1 : p.2.toNat + 1 < h := by
      have hsucc : (p.2.toNat + 1) * w = p.2.toNat * w + w :=
        Nat.succ_mul p.2.toNat w
      have hcoord : (p.2.toNat + 1) * w + p.1.toNat < w * h := by omega
      exact row_lt_of_idx hX hcoord
    refine ⟨(p.1, p.2 + 1), by simp [expandCoord], validCoord_mk_eq.mpr
      ⟨hx0, hxw, by omega, by omega, ?_⟩⟩
    have htn : (p.2 + 1).toNat = p.2.toNat + 1 := by omega
    rw [htn]
    have hsucc : (p.2.toNat + 1) * w = p.2.toNat * w + w :=
      Nat.succ_mul p.2.toNat w
    omega
  · have hY1 : 0 < p.2.toNat := by
      rcases Nat.eq_zero_or_pos p.2.toNat with h0 | hp
      · rw [h0, Nat.zero_mul] at hij
        omega
      · exact hp
    refine ⟨(p.1, p.2 - 1), by simp [expandCoord], validCoord_mk_eq.mpr
      ⟨hx0, hxw, by omega, by omega, ?_⟩⟩
    have htn : (p.2 - 1).toNat = p.2.toNat - 1 := by omega
    rw [htn]
    have hsub : (p.2.toNat - 1) * w = p.2.toNat * w - w :=
      Nat.sub_one_mul p.2.toNat w
    have hge : w ≤ p.2.toNat * w := Nat.le_mul_of_pos_left w (by omega)
    omega

theorem mem_rowMajor {w h : ℕ} {p : ℕ × ℕ} :
    p ∈ rowMajor w h ↔ p.1 < w ∧ p.2 < h := by
  unfold rowMajor
  simp only [List.mem_flatMap, List.mem_map, List.mem_range]
  constructor
  · rintro ⟨y, hy, x, hx, rfl⟩
    exact ⟨hx, hy⟩
  · rintro ⟨h1, h2⟩
    exact ⟨p.2, h2, p.1, h1, rfl⟩

theorem rowMajor_covers {w h : ℕ} :
    ∀ j, j < w * h → ∃ p ∈ rowMajor w h, p.2 * w + p.1 = j := by
  intro j hj
  have hw : 0 < w := pos_w_of_lt hj
  refine ⟨(j % w, j / w), mem_rowMajor.mpr ⟨Nat.mod_lt j hw, ?_⟩, ?_⟩
  · rw [Nat.div_lt_iff_lt_mul hw, Nat.mul_comm h w]
    exact hj
  · dsimp only
    have := Nat.mod_add_div j w
    have hcomm : j / w * w = w * (j / w) := Nat.mul_comm _ w
    omega


/-! ## From a finished labeling pass to the keep-largest specification -/

theorem keeps_largest_of_scan {ρ : Type} {fg : ℕ → Bool} {w h : ℕ}
    {rId rSize : ρ → ℕ} {LF : ℕ → ℕ} {regsF : List ρ} {nextF : ℕ} (keep : ℕ)
    (hinv : ScanInv fg w h rId rSize LF regsF nextF)
    (hcover : ∀ j, j < w * h → fg j = true → LF j ≠ 0) :
    KeepsLargestComponents fg w h keep (fun i =>
      if (((jsSort (fun a b => decide (rSize b ≤ rSize a)) regsF).take
        keep).map rId).contains (LF i) = true then 255 else 0) := by
  obtain ⟨i1, i2, i3, i4⟩ := hinv
  obtain ⟨hsub, hdom⟩ := topSelect_spec rSize regsF keep
  have hmapnodup : (regsF.map rId).Nodup := by
    rw [i2]
    exact List.nodup_range' 1 regsF.length
  have hregnodup : regsF.Nodup := List.Nodup.of_map rId hmapnodup
  have htknodup : ((jsSort (fun a b => decide (rSize b ≤ rSize a))
      regsF).take keep).Nodup :=
    List.Sublist.nodup (List.take_sublist _ _)
      (((jsSort_perm _ regsF).nodup_iff).mpr hregnodup)
  have hIsCC : ∀ r ∈ regsF, IsCC fg w h {j | LF j = rId r} := by
    intro r hr
    obtain ⟨sd, hsdfg, hsdlt, hchar, _⟩ := i4 r hr
    exact ⟨sd, hsdfg, hsdlt, Set.ext fun j => hchar j⟩
  have hseedmem : ∀ r ∈ regsF, ∀ sd, fg sd = true → sd < w * h →
      (∀ j, LF j = rId r ↔ Reach fg w h sd j) → LF sd = rId r := by
    intro r _ sd hsdfg hsdlt hchar
    exact (hchar sd).mpr (Reach.refl sd hsdlt hsdfg)
  have hsize : ∀ r ∈ regsF, {j | LF j = rId r}.ncard = rSize r := by
    intro r hr
    obtain ⟨sd, hsdfg, hsdlt, hchar, hsz⟩ := i4 r hr
    rw [Set.ext fun j => hchar j, hsz]
  have hinj : ∀ r1 ∈ regsF, ∀ r2 ∈ regsF,
      {j | LF j = rId r1} = {j | LF j = rId r2} → r1 = r2 := by
    intro r1 hr1 r2 hr2 hceq
    obtain ⟨sd1, hfg1, hlt1, hchar1, _⟩ := i4 r1 hr1
    have hsd1 : LF sd1 = rId r1 := hseedmem r1 hr1 sd1 hfg1 hlt1 hchar1
    have hsd1' : sd1 ∈ {j | LF j = rId r2} := hceq ▸ hsd1
    have hideq : rId r1 = rId r2 := hsd1 ▸ hsd1'
    exact List.inj_on_of_nodup_map hmapnodup hr1 hr2 hideq
  refine ⟨((jsSort (fun a b => decide (rSize b ≤ rSize a)) regsF).take
    keep).map (fun r => {j | LF j = rId r}), ?_, ?_, ?_, ?_, ?_⟩
  · intro c hc
    obtain ⟨r, hrtk, rfl⟩ := List.mem_map.mp hc
    exact hIsCC r (hsub r hrtk)
  · refine List.Nodup.map_on ?_ htknodup
    intro r1 h1 r2 h2 hceq
    exact hinj r1 (hsub r1 h1) r2 (hsub r2 h2) hceq
  · rw [List.length_map, List.length_take]
    exact min_le_left _ _
  · intro i _
    dsimp only
    by_cases hc : LF i ∈ ((jsSort (fun a b => decide (rSize b ≤ rSize a))
        regsF).take keep).map rId
    · have hcc : (((jsSort (fun a b => decide (rSize b ≤ rSize a))
          regsF).take keep).map rId).contains (LF i) = true := by
        simpa using hc
      rw [if_pos hcc]
      refine ⟨Or.inl rfl, fun _ => ?_, fun _ => rfl⟩
      obtain ⟨r, hrtk, hrid⟩ := List.mem_map.mp hc
      exact ⟨{j | LF j = rId r}, List.mem_map_of_mem _ hrtk, hrid.symm⟩
    · have hcc : ¬((((jsSort (fun a b => decide (rSize b ≤ rSize a))
          regsF).take keep).map rId).contains (LF i) = true) := by
        simpa using hc
      rw [if_neg hcc]
      refine ⟨Or.inr rfl, ?_, ?_⟩
      · intro h255
        exact absurd h255 (by norm_num)
      · rintro ⟨c, hcmem, hic⟩
        obtain ⟨r, hrtk, rfl⟩ := List.mem_map.mp hcmem
        have hlfi : LF i = rId r := hic
        exact absurd (by
          rw [hlfi]
          exact List.mem_map_of_mem rId hrtk) hc
  · intro c hcc hnotin
    obtain ⟨s, hsfg, hslt, rfl⟩ := hcc
    have hs0 : LF s ≠ 0 := hcover s hslt hsfg
    obtain ⟨r0, hr0mem, hr0id⟩ := scanInv_label_mem ⟨i1, i2, i3, i4⟩ hs0
    obtain ⟨sd0, hfg0, hlt0, hchar0, hsz0⟩ := i4 r0 hr0mem
    have hreach0 : Reach fg w h sd0 s := (hchar0 s).mp hr0id.symm
    have hceq : {j | Reach fg w h s j} = {j | LF j = rId r0} := by
      rw [← reach_set_eq hreach0]
      exact (Set.ext fun j => hchar0 j).symm
    have hr0tk : r0 ∉ (jsSort (fun a b => decide (rSize b ≤ rSize a))
        regsF).take keep := by
      intro hcon
      exact hnotin (hceq ▸ List.mem_map_of_mem
        (fun r => {j | LF j = rId r}) hcon)
    obtain ⟨hlen, hsizes⟩ := hdom r0 hr0mem hr0tk
    constructor
    · rw [List.length_map]
      exact hlen
    · rintro c' hc'
      obtain ⟨r', hr'tk, rfl⟩ := List.mem_map.mp hc'
      have h1 : {j | Reach fg w h s j}.ncard = rSize r0 := by
        rw [hceq]
        exact hsize r0 hr0mem
      have h2 : {j | LF j = rId r'}.ncard = rSize r' :=
        hsize r' (hsub r' hr'tk)
      rw [h1, h2]
      exact hsizes r' hr'tk


/-! ## Pipeline-level specifications -/

theorem keepsLargest_congr {fg : ℕ → Bool} {w h keep : ℕ} {v1 v2 : ℕ → ℕ}
    (hv : ∀ i, i < w * h → v1 i = v2 i)
    (hk : KeepsLargestComponents fg w h keep v1) :
    KeepsLargestComponents fg w h keep v2 := by
  obtain ⟨comps, h1, h2, h3, h4, h5⟩ := hk
  exact ⟨comps, h1, h2, h3, fun i hi => by rw [← hv i hi]; exact h4 i hi, h5⟩

theorem flatMap_quad_length (g : ℕ → List ℕ) (hg : ∀ i, (g i).length = 4)
    (n : ℕ) : ((List.range n).flatMap g).length = 4 * n := by
  induction n with
  | zero => simp
  | succ n ih =>
    rw [List.range_succ, List.flatMap_append, List.length_append, ih]
    simp only [List.flatMap_cons, List.flatMap_nil, List.append_nil, hg n]
    omega

theorem flatMap_quad_getD (g : ℕ → List ℕ) (hg : ∀ i, (g i).length = 4)
    {n i : ℕ} (c : ℕ) (hi : i < n) (hc : c < 4) :
    ((List.range n).flatMap g).getD (4 * i + c) 0 = (g i).getD c 0 := by
  induction n with
  | zero => omega
  | succ n ih =>
    rw [List.range_succ, List.flatMap_append]
    rcases Nat.lt_or_ge i n with hin | hin
    · rw [List.getD_append]
      · exact ih hin
      · rw [flatMap_quad_length g hg]
        omega
    · have hieq : i = n := by omega
      subst hieq
      rw [List.getD_append_right]
      · rw [flatMap_quad_length g hg]
        simp only [List.flatMap_cons, List.flatMap_nil, List.append_nil]
        congr 1
        omega
      · rw [flatMap_quad_length g hg]
        omega

theorem labelComponents_spec (rawMask : ℕ → ℕ) (w h : ℕ) :
    ScanInv (fun i => decide (128 ≤ rawMask i)) w h (fun p => p.1)
      (fun p => p.2) (labelComponents rawMask w h).1
      (labelComponents rawMask w h).2.1 (labelComponents rawMask w h).2.2 ∧
    (∀ j, j < w * h → 128 ≤ rawMask j →
      (labelComponents rawMask w h).1 j ≠ 0) := by
  have hinv0 : ScanInv (fun i => decide (128 ≤ rawMask i)) w h
      (fun p : ℕ × ℕ => p.1) (fun p : ℕ × ℕ => p.2) (fun _ => 0) [] 1 :=
    ⟨fun j hj => absurd rfl hj, rfl, rfl,
      fun r hr => absurd hr (List.not_mem_nil r)⟩
  have hspec := @scanLoop_spec ℕ ℕ (ℕ × ℕ) ℕ w h
    (fun i => decide (128 ≤ rawMask i)) (validIdx w h) (skipIdx rawMask)
    (expandIdx w h) (fun s _ => s + 1) (fun s => s) (fun i => i) (fun i => i)
    (fun _ => 0) (fun l s => (l, s)) (fun p => p.1) (fun p => p.2)
    (skipIdx_iff rawMask) validIdx_sound
    (fun e i hv => by
      obtain ⟨hlt, rfl⟩ := validIdx_eq.mp hv
      exact expandIdx_sound hlt)
    (fun e i hv j hadj _ => by
      obtain ⟨hlt, rfl⟩ := validIdx_eq.mp hv
      exact expandIdx_complete hlt j hadj)
    (fun e => expandIdx_length w h e)
    (fun s e => rfl) (fun a => rfl) (fun l s => rfl) (fun l s => rfl)
    (List.range (w * h))
    (fun a ha => validIdx_eq.mpr ⟨List.mem_range.mp ha, rfl⟩)
    (fun _ => 0) [] 1 hinv0
  refine ⟨hspec.1, ?_⟩
  intro j hj hraw
  exact hspec.2.2 j (List.mem_range.mpr hj) (by simpa using hraw)

theorem labelRegions_spec (binaryMask : ℕ → ℕ) (w h : ℕ) :
    ScanInv (fun i => binaryMask i == 1) w h Region.id Region.pixels
      (labelRegions binaryMask w h).1 (labelRegions binaryMask w h).2.1
      (labelRegions binaryMask w h).2.2 ∧
    (∀ j, j < w * h → binaryMask j = 1 →
      (labelRegions binaryMask w h).1 j ≠ 0) := by
  have hinv0 : ScanInv (fun i => binaryMask i == 1) w h Region.id
      Region.pixels (fun _ => 0) ([] : List Region) 1 :=
    ⟨fun j hj => absurd rfl hj, rfl, rfl,
      fun r hr => absurd hr (List.not_mem_nil r)⟩
  have hspec := @scanLoop_spec (ℤ × ℤ) (ℕ × ℕ × ℕ × ℕ × ℕ) Region (ℕ × ℕ)
    w h (fun i => binaryMask i == 1) (validCoord w h) (skipCoord binaryMask)
    expandCoord updStats (fun s => s.1) (fun p => ((p.1 : ℤ), (p.2 : ℤ)))
    (fun p => p.2 * w + p.1) (fun p => (0, p.1, p.1, p.2, p.2))
    (fun l s => (⟨l, s.1, s.2.1, s.2.2.1, s.2.2.2.1, s.2.2.2.2⟩ : Region))
    Region.id Region.pixels
    (skipCoord_iff binaryMask) validCoord_sound
    (fun e i hv => expandCoord_sound e i hv)
    (fun e i hv j hadj _ => expandCoord_complete e i hv j hadj)
    expandCoord_length
    (fun s e => rfl) (fun a => rfl) (fun l s => rfl) (fun l s => rfl)
    (rowMajor w h)
    (fun p hp => by
      obtain ⟨h1, h2⟩ := mem_rowMajor.mp hp
      refine validCoord_mk_eq.mpr ⟨by omega, by omega, by omega, by omega, ?_⟩
      rw [Int.toNat_natCast, Int.toNat_natCast])
    (fun _ => 0) [] 1 hinv0
  refine ⟨hspec.1, ?_⟩
  intro j hj hbm
  obtain ⟨p, hpmem, hpidx⟩ := rowMajor_covers j hj
  have hres : (labelRegions binaryMask w h).1 (p.2 * w + p.1) ≠ 0 :=
    hspec.2.2 p hpmem (by
      show (binaryMask (p.2 * w + p.1) == 1) = true
      rw [hpidx]
      exact beq_iff_eq.mpr hbm)
  rw [hpidx] at hres
  exact hres

theorem keepLargestComponents_keeps (rawMask : List ℕ) (w h keep : ℕ) :
    (keepLargestComponents rawMask w h keep).length = w * h ∧
    KeepsLargestComponents (rawForeground rawMask) w h keep
      (fun i => (keepLargestComponents rawMask w h keep).getD i 0) := by
  obtain ⟨hinv, hcov⟩ := labelComponents_spec (fun i => rawMask.getD i 0) w h
  constructor
  · simp [keepLargestComponents]
  · refine keepsLargest_congr ?_ (keeps_largest_of_scan keep hinv ?_)
    · intro i hi
      have hrw : keepLargestComponents rawMask w h keep =
          (List.range (w * h)).map (fun k =>
            if ((((jsSort (fun a b => decide (b.2 ≤ a.2))
              (labelComponents (fun j => rawMask.getD j 0) w h).2.1).take
              keep).map (fun p => p.1)).contains
              ((labelComponents (fun j => rawMask.getD j 0) w h).1 k)) = true
            then 255 else 0) := rfl
      rw [hrw, getD_map_range _ _ hi]
    · intro j hj hfgj
      exact hcov j hj (by simpa [rawForeground] using hfgj)

theorem filterMask_keeps (data : List ℕ) (channels w h keep : ℕ) :
    (filterMaskToLargestRegions data channels w h keep).length = 4 * (w * h) ∧
    (∀ i, i < w * h →
      (filterMaskToLargestRegions data channels w h keep).getD (4 * i + 1) 0 =
        (filterMaskToLargestRegions data channels w h keep).getD (4 * i) 0 ∧
      (filterMaskToLargestRegions data channels w h keep).getD (4 * i + 2) 0 =
        (filterMaskToLargestRegions data channels w h keep).getD (4 * i) 0 ∧
      (filterMaskToLargestRegions data channels w h keep).getD (4 * i + 3) 0 =
        255) ∧
    KeepsLargestComponents (maskForeground data channels) w h keep
      (fun i =>
        (filterMaskToLargestRegions data channels w h keep).getD
          (4 * i) 0) := by
  obtain ⟨hinv, hcov⟩ := labelRegions_spec
    (fun i => if 128 < data.getD (i * channels) 0 then 1 else 0) w h
  have hrw : filterMaskToLargestRegions data channels w h keep =
      (List.range (w * h)).flatMap (fun k =>
        [if ((((jsSort (fun a b => decide (b.pixels ≤ a.pixels))
            (labelRegions (fun i => if 128 < data.getD (i * channels) 0
              then 1 else 0) w h).2.1).take keep).map (fun r => r.id)).contains
            ((labelRegions (fun i => if 128 < data.getD (i * channels) 0
              then 1 else 0) w h).1 k)) = true then 255 else 0,
          if ((((jsSort (fun a b => decide (b.pixels ≤ a.pixels))
            (labelRegions (fun i => if 128 < data.getD (i * channels) 0
              then 1 else 0) w h).2.1).take keep).map (fun r => r.id)).contains
            ((labelRegions (fun i => if 128 < data.getD (i * channels) 0
              then 1 else 0) w h).1 k)) = true then 255 else 0,
          if ((((jsSort (fun a b => decide (b.pixels ≤ a.pixels))
            (labelRegions (fun i => if 128 < data.getD (i * channels) 0
              then 1 else 0) w h).2.1).take keep).map (fun r => r.id)).contains
            ((labelRegions (fun i => if 128 < data.getD (i * channels) 0
              then 1 else 0) w h).1 k)) = true then 255 else 0,
          255]) := rfl
  have hg : ∀ k, (([if ((((jsSort (fun a b => decide (b.pixels ≤ a.pixels))
      (labelRegions (fun i => if 128 < data.getD (i * channels) 0
        then 1 else 0) w h).2.1).take keep).map (fun r => r.id)).contains
      ((labelRegions (fun i => if 128 < data.getD (i * channels) 0
        then 1 else 0) w h).1 k)) = true then 255 else 0,
      if ((((jsSort (fun a b => decide (b.pixels ≤ a.pixels))
        (labelRegions (fun i => if 128 < data.getD (i * channels) 0
          then 1 else 0) w h).2.1).take keep).map (fun r => r.id)).contains
        ((labelRegions (fun i => if 128 < data.getD (i * channels) 0
          then 1 else 0) w h).1 k)) = true then 255 else 0,
      if ((((jsSort (fun a b => decide (b.pixels ≤ a.pixels))
        (labelRegions (fun i => if 128 < data.getD (i * channels) 0
          then 1 else 0) w h).2.1).take keep).map (fun r => r.id)).contains
        ((labelRegions (fun i => if 128 < data.getD (i * channels) 0
          then 1 else 0) w h).1 k)) = true then 255 else 0,
      255]) : List ℕ).length = 4 := fun k => rfl
  have hq : ∀ i, i < w * h → ∀ c, c < 4 →
      (filterMaskToLargestRegions data channels w h keep).getD (4 * i + c) 0 =
      ([if ((((jsSort (fun a b => decide (b.pixels ≤ a.pixels))
          (labelRegions (fun j => if 128 < data.getD (j * channels) 0
            then 1 else 0) w h).2.1).take keep).map (fun r => r.id)).contains
          ((labelRegions (fun j => if 128 < data.getD (j * channels) 0
            then 1 else 0) w h).1 i)) = true then 255 else 0,
        if ((((jsSort (fun a b => decide (b.pixels ≤ a.pixels))
          (labelRegions (fun j => if 128 < data.getD (j * channels) 0
            then 1 else 0) w h).2.1).take keep).map (fun r => r.id)).contains
          ((labelRegions (fun j => if 128 < data.getD (j * channels) 0
            then 1 else 0) w h).1 i)) = true then 255 else 0,
        if ((((jsSort (fun a b => decide (b.pixels ≤ a.pixels))
          (labelRegions (fun j => if 128 < data.getD (j * channels) 0
            then 1 else 0) w h).2.1).take keep).map (fun r => r.id)).contains
          ((labelRegions (fun j => if 128 < data.getD (j * channels) 0
            then 1 else 0) w h).1 i)) = true then 255 else 0,
        255] : List ℕ).getD c 0 := by
    intro i hi c hc
    rw [hrw]
    exact flatMap_quad_getD _ hg c hi hc
  refine ⟨?_, ?_, ?_⟩
  · rw [hrw]
    exact flatMap_quad_length _ hg (w * h)
  · intro i hi
    have h0 := hq i hi 0 (by omega)
    have h1 := hq i hi 1 (by omega)
    have h2 := hq i hi 2 (by omega)
    have h3 := hq i hi 3 (by omega)
    simp only [Nat.add_zero] at h0
    exact ⟨by rw [h0, h1]; rfl, by rw [h0, h2]; rfl, by rw [h3]; rfl⟩
  · have hfg : (fun i => ((if 128 < data.getD (i * channels) 0 then 1 else 0 :
        ℕ) == 1)) = maskForeground data channels := by
      funext i
      show ((if 128 < data.getD (i * channels) 0 then 1 else 0 : ℕ) == 1) =
        decide (128 < data.getD (i * channels) 0)
      by_cases hd : 128 < data.getD (i * channels) 0
      · rw [if_pos hd, decide_eq_true hd]; rfl
      · rw [if_neg hd, decide_eq_false hd]; rfl
    have hk := keeps_largest_of_scan keep hinv (by
      intro j hj hfgj
      refine hcov j hj ?_
      have hb : ((if 128 < data.getD (j * channels) 0 then 1 else 0 : ℕ) ==
        1) = true := hfgj
      exact eq_of_beq hb)
    rw [hfg] at hk
    refine keepsLargest_congr ?_ hk
    intro i hi
    have h0 := hq i hi 0 (by omega)
    simp only [Nat.add_zero] at h0
    rw [h0]
    rfl

/-- One iteration of the explicit-stack loop, as the sources execute it:
popping the top entry either labels a previously unlabeled foreground pixel
(strictly decreasing the count of unlabeled foreground pixels, with the
neighbors pushed and the statistics advanced) or discards the entry, leaving
labels and statistics untouched. -/
theorem worklist_step_dichotomy {E σ : Type} {w h : ℕ} (fg : ℕ → Bool)
    (valid : E → Option ℕ) (skip : (ℕ → ℕ) → ℕ → Bool)
    (expand : E → List E) (upd : σ → E → σ) (label : ℕ)
    (hskipf : ∀ (L : ℕ → ℕ) i, skip L i = false ↔ (fg i = true ∧ L i = 0))
    (hvalid : ∀ e i, valid e = some i → i < w * h) (hlabel : label ≠ 0)
    (fuel : ℕ) (L : ℕ → ℕ) (e : E) (rest : List E) (s : σ) :
    (∃ idx, valid e = some idx ∧ fg idx = true ∧ L idx = 0 ∧
      worklist valid skip expand upd label (fuel + 1) L (e :: rest) s =
        worklist valid skip expand upd label fuel
          (fun j => if j = idx then label else L j) (expand e ++ rest)
          (upd s e) ∧
      unlabeledCount fg w h (fun j => if j = idx then label else L j) <
        unlabeledCount fg w h L) ∨
    worklist valid skip expand upd label (fuel + 1) L (e :: rest) s =
      worklist valid skip expand upd label fuel L rest s := by
  cases hv : valid e with
  | none =>
    right
    rw [worklist]
    simp only [hv]
  | some idx =>
    by_cases hs : skip L idx
    · right
      rw [worklist]
      simp only [hv]
      rw [if_pos hs]
    · have hs' : skip L idx = false := by
        simp only [Bool.not_eq_true] at hs
        exact hs
      have hcond := (hskipf L idx).mp hs'
      left
      refine ⟨idx, rfl, hcond.1, hcond.2, ?_, ?_⟩
      · rw [worklist]
        simp only [hv]
        rw [if_neg hs]
      · have hu := unlabeledCount_update (hvalid e idx hv) hcond.1
          hcond.2 hlabel
        omega

/-! ## Claim theorems -/

/-- C2: for every candidate image and grayscale mask of the same dimensions,
the masked cutout copies the candidate's R, G, B verbatim and uses the raw
mask intensity as alpha; in particular alpha is 0 where the mask is 0 and 255
where the mask is 255. -/
theorem claim_C2_masked_cutout (generatedRaw : ℕ → Pixel) (maskRaw : ℕ → ℕ)
    (n i : ℕ) (h : i < n) :
    (extractMaskedLayer generatedRaw maskRaw n).getD i ⟨0, 0, 0, 0⟩ =
      ⟨(generatedRaw i).r, (generatedRaw i).g, (generatedRaw i).b,
        maskRaw i⟩ ∧
    (maskRaw i = 0 →
      ((extractMaskedLayer generatedRaw maskRaw n).getD i ⟨0, 0, 0, 0⟩).a = 0) ∧
    (maskRaw i = 255 →
      ((extractMaskedLayer generatedRaw maskRaw n).getD i ⟨0, 0, 0, 0⟩).a = 255) := by
  unfold extractMaskedLayer
  rw [getD_map_range _ _ h]
  refine ⟨rfl, ?_, ?_⟩ <;> intro hm <;> simp [hm]

/-- Witness for C2 at a concrete pixel. -/
theorem claim_C2_witness :
    (extractMaskedLayer (fun _ => ⟨9, 8, 7, 0⟩) (fun _ => 200) 1).getD 0
        ⟨0, 0, 0, 0⟩ = ⟨9, 8, 7, 200⟩ ∧
    ((200 : ℕ) = 0 →
      ((extractMaskedLayer (fun _ => ⟨9, 8, 7, 0⟩) (fun _ => 200) 1).getD 0
        ⟨0, 0, 0, 0⟩).a = 0) ∧
    ((200 : ℕ) = 255 →
      ((extractMaskedLayer (fun _ => ⟨9, 8, 7, 0⟩) (fun _ => 200) 1).getD 0
        ⟨0, 0, 0, 0⟩).a = 255) :=
  claim_C2_masked_cutout (fun _ => ⟨9, 8, 7, 0⟩) (fun _ => 200) 1 0 (by decide)

/-- C4: the combined body-minus-wheel mask is 255 exactly when the body value
exceeds 128 and the wheel value is below 128 (otherwise 0); hence no pixel is
foreground in both the wheel mask and the combined paint mask, and when the
wheel mask covers every body-foreground pixel the paint layer built from the
combined mask is fully transparent. -/
theorem claim_C4_paint_excludes_wheels (bodyRaw wheelRaw : ℕ → ℕ) (n : ℕ)
    (generatedRaw : ℕ → Pixel) (i : ℕ) (h : i < n) :
    ((subtractWheelFromBody bodyRaw wheelRaw n).getD i 0 = 255 ↔
      (128 < bodyRaw i ∧ wheelRaw i < 128)) ∧
    ((subtractWheelFromBody bodyRaw wheelRaw n).getD i 0 = 255 ∨
      (subtractWheelFromBody bodyRaw wheelRaw n).getD i 0 = 0) ∧
    ¬(128 < wheelRaw i ∧
      128 < (subtractWheelFromBody bodyRaw wheelRaw n).getD i 0) ∧
    ((∀ j < n, 128 < bodyRaw j → 128 < wheelRaw j) →
      ((extractMaskedLayer generatedRaw
          (fun j => (subtractWheelFromBody bodyRaw wheelRaw n).getD j 0) n).getD
        i ⟨0, 0, 0, 0⟩).a = 0) := by
  have hc : ∀ j, j < n → (subtractWheelFromBody bodyRaw wheelRaw n).getD j 0 =
      if 128 < bodyRaw j ∧ wheelRaw j < 128 then 255 else 0 := by
    intro j hj
    unfold subtractWheelFromBody
    rw [getD_map_range _ _ hj]
  rw [hc i h]
  refine ⟨?_, ?_, ?_, ?_⟩
  · constructor
    · intro hv
      by_contra hcond
      rw [if_neg hcond] at hv
      exact absurd hv (by norm_num)
    · intro hcond
      rw [if_pos hcond]
  · split
    · exact Or.inl rfl
    · exact Or.inr rfl
  · rintro ⟨hw, hcomb⟩
    by_cases hcond : 128 < bodyRaw i ∧ wheelRaw i < 128
    · exact absurd hw (by omega)
    · rw [if_neg hcond] at hcomb
      exact absurd hcomb (by norm_num)
  · intro hcover
    unfold extractMaskedLayer
    rw [getD_map_range _ _ h]
    show (subtractWheelFromBody bodyRaw wheelRaw n).getD i 0 = 0
    rw [hc i h]
    by_cases hcond : 128 < bodyRaw i ∧ wheelRaw i < 128
    · have := hcover i h hcond.1
      omega
    · rw [if_neg hcond]

/-- Witness for C4 at a concrete pixel. -/
theorem claim_C4_witness :
    ((subtractWheelFromBody (fun _ => 200) (fun _ => 200) 1).getD 0 0 = 255 ↔
      (128 < 200 ∧ 200 < 128)) ∧
    ((subtractWheelFromBody (fun _ => 200) (fun _ => 200) 1).getD 0 0 = 255 ∨
      (subtractWheelFromBody (fun _ => 200) (fun _ => 200) 1).getD 0 0 = 0) ∧
    ¬(128 < 200 ∧
      128 < (subtractWheelFromBody (fun _ => 200) (fun _ => 200) 1).getD 0 0) ∧
    ((∀ j < 1, 128 < 200 → 128 < 200) →
      ((extractMaskedLayer (fun _ => ⟨1, 2, 3, 4⟩)
          (fun j => (subtractWheelFromBody (fun _ => 200) (fun _ => 200) 1).getD
            j 0) 1).getD 0 ⟨0, 0, 0, 0⟩).a = 0) :=
  claim_C4_paint_excludes_wheels (fun _ => 200) (fun _ => 200) 1
    (fun _ => ⟨1, 2, 3, 4⟩) 0 (by decide)

/-- C6: the alpha-blend composite computes each color channel as
`round(original * (1 - alpha) + modified * alpha)` with
`alpha = maskIntensity / 255` and writes alpha 255; with an all-zero mask the
color channels equal the original's, with an all-255 mask the modified's. -/
theorem claim_C6_blend (originalRaw modifiedRaw maskRaw : ℕ → Pixel)
    (n i : ℕ) (h : i < n) :
    (compositeWithMask originalRaw modifiedRaw maskRaw n).getD i ⟨0, 0, 0, 0⟩ =
      ⟨blendChannel (originalRaw i).r (modifiedRaw i).r (maskRaw i).r,
        blendChannel (originalRaw i).g (modifiedRaw i).g (maskRaw i).r,
        blendChannel (originalRaw i).b (modifiedRaw i).b (maskRaw i).r,
        255⟩ ∧
    ((∀ j, (maskRaw j).r = 0) →
      (compositeWithMask originalRaw modifiedRaw maskRaw n).getD i ⟨0, 0, 0, 0⟩ =
        ⟨(originalRaw i).r, (originalRaw i).g, (originalRaw i).b, 255⟩) ∧
    ((∀ j, (maskRaw j).r = 255) →
      (compositeWithMask originalRaw modifiedRaw maskRaw n).getD i ⟨0, 0, 0, 0⟩ =
        ⟨(modifiedRaw i).r, (modifiedRaw i).g, (modifiedRaw i).b, 255⟩) := by
  have hb : (compositeWithMask originalRaw modifiedRaw maskRaw n).getD i
      ⟨0, 0, 0, 0⟩ =
      ⟨blendChannel (originalRaw i).r (modifiedRaw i).r (maskRaw i).r,
        blendChannel (originalRaw i).g (modifiedRaw i).g (maskRaw i).r,
        blendChannel (originalRaw i).b (modifiedRaw i).b (maskRaw i).r,
        255⟩ := by
    unfold compositeWithMask
    rw [getD_map_range _ _ h]
  refine ⟨hb, ?_, ?_⟩
  · intro hm
    rw [hb, hm i]
    simp [blendChannel_mask_zero]
  · intro hm
    rw [hb, hm i]
    simp [blendChannel_mask_full]

/-- Witness for C6 at a concrete pixel. -/
theorem claim_C6_witness :
    (compositeWithMask (fun _ => ⟨10, 20, 30, 255⟩) (fun _ => ⟨40, 50, 60, 255⟩)
        (fun _ => ⟨0, 0, 0, 255⟩) 1).getD 0 ⟨0, 0, 0, 0⟩ =
      ⟨blendChannel 10 40 0, blendChannel 20 50 0, blendChannel 30 60 0, 255⟩ ∧
    ((∀ _ : ℕ, (0 : ℕ) = 0) →
      (compositeWithMask (fun _ => ⟨10, 20, 30, 255⟩) (fun _ => ⟨40, 50, 60, 255⟩)
          (fun _ => ⟨0, 0, 0, 255⟩) 1).getD 0 ⟨0, 0, 0, 0⟩ =
        ⟨10, 20, 30, 255⟩) ∧
    ((∀ _ : ℕ, (0 : ℕ) = 255) →
      (compositeWithMask (fun _ => ⟨10, 20, 30, 255⟩) (fun _ => ⟨40, 50, 60, 255⟩)
          (fun _ => ⟨0, 0, 0, 255⟩) 1).getD 0 ⟨0, 0, 0, 0⟩ =
        ⟨40, 50, 60, 255⟩) :=
  claim_C6_blend (fun _ => ⟨10, 20, 30, 255⟩) (fun _ => ⟨40, 50, 60, 255⟩)
    (fun _ => ⟨0, 0, 0, 255⟩) 1 0 (by decide)

/-- C7: when a raster already has the target dimensions, the alignment guard
returns it unchanged, whatever the external resizer would do. -/
theorem claim_C7_idempotent_alignment (r : Raster) (targetW targetH : ℕ)
    (resize : Raster → ℕ → ℕ → Raster) (hw : r.width = targetW)
    (hh : r.height = targetH) :
    alignToSize r targetW targetH resize = r := by
  unfold alignToSize
  simp [hw, hh]

/-- Witness for C7 on a concrete raster. -/
theorem claim_C7_witness :
    alignToSize ⟨1, 1, [⟨5, 6, 7, 255⟩]⟩ 1 1 nearestResize =
      ⟨1, 1, [⟨5, 6, 7, 255⟩]⟩ :=
  claim_C7_idempotent_alignment ⟨1, 1, [⟨5, 6, 7, 255⟩]⟩ 1 1 nearestResize
    rfl rfl

/-- C8 counterexample: a failed region-mask load does not abort the
difference-layer extraction; the extraction returns exactly the layer
computed without any mask, here containing an opaque changed pixel. -/
theorem claim_C8_counterexample :
    extractDifferenceLayer (fun _ => ⟨0, 0, 0, 255⟩) (fun _ => ⟨200, 200, 200, 255⟩)
        1 1 25 (some (Except.error "fetch failed")) MaskMode.includeMode =
      extractDifferenceLayer (fun _ => ⟨0, 0, 0, 255⟩) (fun _ => ⟨200, 200, 200, 255⟩)
        1 1 25 none MaskMode.includeMode ∧
    extractDifferenceLayer (fun _ => ⟨0, 0, 0, 255⟩) (fun _ => ⟨200, 200, 200, 255⟩)
        1 1 25 (some (Except.error "fetch failed")) MaskMode.includeMode =
      [⟨200, 200, 200, 255⟩] :=
  ⟨rfl, by decide⟩

/-- C8 amended: within the compositing core a failure to load or decode the
region mask during difference-layer extraction is caught and the layer is
computed without the mask filter; it is not an abort. -/
theorem claim_C8_amended (originalRaw generatedRaw : ℕ → Pixel) (w h : ℕ)
    (threshold : ℤ) (e : String) (maskMode : MaskMode) :
    extractDifferenceLayer originalRaw generatedRaw w h threshold
        (some (Except.error e)) maskMode =
      extractDifferenceLayer originalRaw generatedRaw w h threshold none
        maskMode := rfl

/-- C9: the segmentation invocation is attempted at most twice; a first
success or an authentication/token error ends the run after one attempt with
no wait; a generic first failure is retried once after a 2000 ms
(= attempt × 1 s) wait, and the run then surfaces the second outcome. -/
theorem claim_C9_segmentation_retry {α : Type}
    (runAttempt : ℕ → Except String α) :
    (segmentWithSam3 runAttempt).attemptsMade ≤ 2 ∧
    (∀ v, runAttempt 1 = Except.ok v →
      segmentWithSam3 runAttempt = ⟨Except.ok v, 1, []⟩) ∧
    (∀ e, runAttempt 1 = Except.error e → includesTokenOr401 e = true →
      segmentWithSam3 runAttempt = ⟨Except.error e, 1, []⟩) ∧
    (∀ e, runAttempt 1 = Except.error e → includesTokenOr401 e = false →
      segmentWithSam3 runAttempt = ⟨runAttempt 2, 2, [1000 * 2]⟩) := by
  unfold segmentWithSam3
  refine ⟨?_, ?_, ?_, ?_⟩
  · rcases h1 : runAttempt 1 with e1 | v1
    · rcases h2 : runAttempt 2 with e2 | v2
      · cases ha : includesTokenOr401 e1 <;> cases hb : includesTokenOr401 e2 <;>
          simp [samLoop, h1, h2, ha, hb]
      · cases ha : includesTokenOr401 e1 <;> simp [samLoop, h1, h2, ha]
    · simp [samLoop, h1]
  · intro v h1
    simp [samLoop, h1]
  · intro e h1 ha
    simp [samLoop, h1, ha]
  · intro e h1 ha
    rcases h2 : runAttempt 2 with e2 | v2
    · cases hb : includesTokenOr401 e2 <;> simp [samLoop, h1, h2, ha, hb]
    · simp [samLoop, h1, h2, ha]

/-- Witness for C9: a generic first failure followed by a success is retried
exactly once with a 2-second wait. -/
theorem claim_C9_witness :
    (segmentWithSam3 (fun n => if n = 1 then Except.error "network flake"
        else Except.ok "mask")).attemptsMade ≤ 2 ∧
    segmentWithSam3 (fun n => if n = 1 then Except.error "network flake"
        else Except.ok "mask") = ⟨Except.ok "mask", 2, [1000 * 2]⟩ := by
  refine ⟨(claim_C9_segmentation_retry _).1, ?_⟩
  have h := (claim_C9_segmentation_retry
    (fun n => if n = 1 then Except.error "network flake" else Except.ok "mask")).2.2.2
    "network flake" rfl (by decide)
  exact h

/-- C3 (code bug): on a mask with zero foreground pixels the keep-N filters
return all-zero as specified, but the keep-1 variant `keepLargestComponent`
returns an all-255 mask: its fold starts from `largestLabel = 0`, the
background label, which every pixel then matches. -/
theorem claim_C3_zero_foreground_bug :
    keepLargestComponent [0, 0, 0, 0] 2 2 = [255, 255, 255, 255] ∧
    keepLargestComponents [0, 0, 0, 0] 2 2 4 = [0, 0, 0, 0] ∧
    filterMaskToLargestRegions [0, 0, 0, 0] 1 2 2 1 =
      [0, 0, 0, 255, 0, 0, 0, 255, 0, 0, 0, 255, 0, 0, 0, 255] := by
  decide

/-- C5 (code bug): on the all-zero mask the keep-1 variant
`keepLargestComponent` grows the foreground pixel count from 0 to the full
pixel count, violating the spec's monotonicity property P3. -/
theorem claim_C5_foreground_count_bug :
    fgCountList [0, 0, 0, 0] = 0 ∧
    fgCountList (keepLargestComponent [0, 0, 0, 0] 2 2) = 4 ∧
    ¬ fgCountList (keepLargestComponent [0, 0, 0, 0] 2 2) ≤
      fgCountList [0, 0, 0, 0] := by
  decide

/-- C1 counterexample: the claim fixes the foreground threshold at intensity
strictly greater than 128 for both region filters, but `keepLargestComponents`
of the detect-wheels route treats intensity exactly 128 as foreground
(`rawMask[idx] < 128` discard / `rawMask[i] >= 128` scan): on the 1x1 raster
of intensity 128 it keeps the pixel as a component and outputs 255, whereas a
filter with a strict threshold — as `filterMaskToLargestRegions` of the mask
utilities indeed implements — outputs background there. -/
theorem claim_C1_counterexample :
    ¬ (128 < 128) ∧
    keepLargestComponents [128] 1 1 1 = [255] ∧
    filterMaskToLargestRegions [128] 1 1 1 1 = [0, 0, 0, 255] := by
  decide

/-- C1 (amended): each region filter returns a mask of the input's dimensions
whose 255-set is the union of at most `keep` distinct true 4-adjacency
connected components of its own foreground — strictly greater than 128 for
`filterMaskToLargestRegions`, at least 128 for `keepLargestComponents` — with
every other pixel 0, and whenever any true component is excluded, exactly
`keep` components are kept, each at least as large as the excluded one. -/
theorem claim_C1_region_filters (data rawMask : List ℕ)
    (channels w h keep w2 h2 keep2 : ℕ) :
    ((filterMaskToLargestRegions data channels w h keep).length =
        4 * (w * h) ∧
      (∀ i, maskForeground data channels i =
        decide (128 < data.getD (i * channels) 0)) ∧
      KeepsLargestComponents (maskForeground data channels) w h keep
        (fun i => (filterMaskToLargestRegions data channels w h keep).getD
          (4 * i) 0)) ∧
    ((keepLargestComponents rawMask w2 h2 keep2).length = w2 * h2 ∧
      (∀ i, rawForeground rawMask i = decide (128 ≤ rawMask.getD i 0)) ∧
      KeepsLargestComponents (rawForeground rawMask) w2 h2 keep2
        (fun i => (keepLargestComponents rawMask w2 h2 keep2).getD i 0)) :=
  ⟨⟨(filterMask_keeps data channels w h keep).1, fun _ => rfl,
    (filterMask_keeps data channels w h keep).2.2⟩,
   ⟨(keepLargestComponents_keeps rawMask w2 h2 keep2).1, fun _ => rfl,
    (keepLargestComponents_keeps rawMask w2 h2 keep2).2⟩⟩

/-- C10: both explicit-stack flood fills return a result within the fuel the
callers provide (termination), a pixel once labeled is never relabeled by a
later flood fill, and every stack pop either labels a previously unlabeled
foreground pixel — strictly decreasing the count of unlabeled foreground
pixels — or discards the entry, leaving labels and statistics unchanged. -/
theorem claim_C10_flood_fill (binaryMask rawMask : ℕ → ℕ) (w h : ℕ)
    (L : ℕ → ℕ) (x y startIdx label : ℕ) (hlabel : label ≠ 0) :
    (floodFill binaryMask w h L x y label).isSome ∧
    (floodFillIdx rawMask w h L startIdx label).isSome ∧
    (∀ L2 r, floodFill binaryMask w h L x y label = some (L2, r) →
      ∀ j, L j ≠ 0 → L2 j = L j) ∧
    (∀ L2 sz, floodFillIdx rawMask w h L startIdx label = some (L2, sz) →
      ∀ j, L j ≠ 0 → L2 j = L j) ∧
    (∀ (fuel : ℕ) (L0 : ℕ → ℕ) (e : ℤ × ℤ) (rest : List (ℤ × ℤ))
        (s : ℕ × ℕ × ℕ × ℕ × ℕ),
      (∃ idx, validCoord w h e = some idx ∧ (binaryMask idx == 1) = true ∧
        L0 idx = 0 ∧
        worklist (validCoord w h) (skipCoord binaryMask) expandCoord updStats
            label (fuel + 1) L0 (e :: rest) s =
          worklist (validCoord w h) (skipCoord binaryMask) expandCoord
            updStats label fuel (fun j => if j = idx then label else L0 j)
            (expandCoord e ++ rest) (updStats s e) ∧
        unlabeledCount (fun i => binaryMask i == 1) w h
            (fun j => if j = idx then label else L0 j) <
          unlabeledCount (fun i => binaryMask i == 1) w h L0) ∨
      worklist (validCoord w h) (skipCoord binaryMask) expandCoord updStats
          label (fuel + 1) L0 (e :: rest) s =
        worklist (validCoord w h) (skipCoord binaryMask) expandCoord updStats
          label fuel L0 rest s) ∧
    (∀ (fuel : ℕ) (L0 : ℕ → ℕ) (e : ℕ) (rest : List ℕ) (s : ℕ),
      (∃ idx, validIdx w h e = some idx ∧ 128 ≤ rawMask idx ∧ L0 idx = 0 ∧
        worklist (validIdx w h) (skipIdx rawMask) (expandIdx w h)
            (fun t _ => t + 1) label (fuel + 1) L0 (e :: rest) s =
          worklist (validIdx w h) (skipIdx rawMask) (expandIdx w h)
            (fun t _ => t + 1) label fuel
            (fun j => if j = idx then label else L0 j)
            (expandIdx w h e ++ rest) (s + 1) ∧
        unlabeledCount (fun i => decide (128 ≤ rawMask i)) w h
            (fun j => if j = idx then label else L0 j) <
          unlabeledCount (fun i => decide (128 ≤ rawMask i)) w h L0) ∨
      worklist (validIdx w h) (skipIdx rawMask) (expandIdx w h)
          (fun t _ => t + 1) label (fuel + 1) L0 (e :: rest) s =
        worklist (validIdx w h) (skipIdx rawMask) (expandIdx w h)
          (fun t _ => t + 1) label fuel L0 rest s) := by
  have hskipzC : ∀ (L0 : ℕ → ℕ) i, skipCoord binaryMask L0 i = false →
      L0 i = 0 := fun L0 i hf => ((skipCoord_iff binaryMask L0 i).mp hf).2
  have hskipzI : ∀ (L0 : ℕ → ℕ) i, skipIdx rawMask L0 i = false →
      L0 i = 0 := fun L0 i hf => ((skipIdx_iff rawMask L0 i).mp hf).2
  have ht : (worklist (validCoord w h) (skipCoord binaryMask) expandCoord
      updStats label (5 * (w * h) + 1) L [((x : ℤ), (y : ℤ))]
      ((0, x, x, y, y) : ℕ × ℕ × ℕ × ℕ × ℕ)).isSome :=
    worklist_terminates (skipCoord_iff binaryMask) validCoord_sound
      expandCoord_length hlabel (5 * (w * h) + 1) L [((x : ℤ), (y : ℤ))]
      (0, x, x, y, y) (by
        have hu := unlabeledCount_le (fun i => binaryMask i == 1) w h L
        simp only [List.length_cons, List.length_nil]
        omega)
  refine ⟨?_, ?_, ?_, ?_, ?_, ?_⟩
  · unfold floodFill
    cases hw : worklist (validCoord w h) (skipCoord binaryMask) expandCoord
        updStats label (5 * (w * h) + 1) L [((x : ℤ), (y : ℤ))]
        (0, x, x, y, y) with
    | none => rw [hw] at ht; simp at ht
    | some p => rfl
  · exact worklist_terminates (skipIdx_iff rawMask) validIdx_sound
      (expandIdx_length w h) hlabel (5 * (w * h) + 1) L [startIdx] 0 (by
        have hu := unlabeledCount_le (fun i => decide (128 ≤ rawMask i)) w h L
        simp only [List.length_cons, List.length_nil]
        omega)
  · intro L2 r heq j hj
    unfold floodFill at heq
    cases hw : worklist (validCoord w h) (skipCoord binaryMask) expandCoord
        updStats label (5 * (w * h) + 1) L [((x : ℤ), (y : ℤ))]
        (0, x, x, y, y) with
    | none => rw [hw] at heq; simp at heq
    | some p =>
      rw [hw] at heq
      simp only [Option.map_some', Option.some.injEq, Prod.mk.injEq] at heq
      obtain ⟨hL2, hr⟩ := heq
      rw [← hL2]
      exact worklist_mono hskipzC (5 * (w * h) + 1) L [((x : ℤ), (y : ℤ))]
        (0, x, x, y, y) p.1 p.2 (by rw [hw]) j hj
  · intro L2 sz heq j hj
    exact worklist_mono hskipzI (5 * (w * h) + 1) L [startIdx] 0 L2 sz heq
      j hj
  · intro fuel L0 e rest s
    exact worklist_step_dichotomy (fun i => binaryMask i == 1)
      (validCoord w h) (skipCoord binaryMask) expandCoord updStats label
      (skipCoord_iff binaryMask) validCoord_sound hlabel fuel L0 e rest s
  · intro fuel L0 e rest s
    rcases worklist_step_dichotomy (fun i => decide (128 ≤ rawMask i))
      (validIdx w h) (skipIdx rawMask) (expandIdx w h) (fun t _ => t + 1)
      label (skipIdx_iff rawMask) validIdx_sound hlabel fuel L0 e rest s with
      hleft | hright
    · obtain ⟨idx, hv, hfg, hL0, heqw, hdec⟩ := hleft
      exact Or.inl ⟨idx, hv, of_decide_eq_true hfg, hL0, heqw, hdec⟩
    · exact Or.inr hright

/-- Witness for C10: both flood fills at a concrete 1x1 input with the
nonzero label 1. -/
theorem claim_C10_witness :
    (floodFill (fun _ => 1) 1 1 (fun _ => 0) 0 0 1).isSome ∧
    (floodFillIdx (fun _ => 255) 1 1 (fun _ => 0) 0 1).isSome :=
  ⟨(claim_C10_flood_fill (fun _ => 1) (fun _ => 255) 1 1 (fun _ => 0)
      0 0 0 1 (by decide)).1,
   (claim_C10_flood_fill (fun _ => 1) (fun _ => 255) 1 1 (fun _ => 0)
      0 0 0 1 (by decide)).2.1⟩
